import Mathlib

/-!
# Verification of the build-time IDL-compiler integration

The repository's literal content is `src/build.rs`: a single build-time
invocation of a protocol-schema compiler (`tonic_build`), configured to emit
server-side scaffolding and to accept the experimental explicit-optional
field extension.  The compiler pipeline itself (parser, resolver, field-model
builder, codec generator, stub generator) is an external collaborator; where a
claim is about that pipeline, the definitions below are modelled from the
specification's words and carry a doc comment saying so.

This file embeds `src/build.rs` faithfully and models the pipeline pieces the
claims need: a varint wire format with records, message encode/decode with
unknown-field preservation, optional-presence policies, schema validation, and
a deterministic declaration-to-output mapping.
-/

namespace BuildRs

/-- Opaque-to-us error of the external compiler pipeline (`Box<dyn Error>` in
`src/build.rs`); the build step only propagates it. -/
structure CompileErr where
  msg : String
deriving DecidableEq

/-- The configuration builder of the schema compiler, as used by
`src/build.rs`: the `build_server` switch and the extra arguments handed to
the schema compiler (`protoc_arg`). -/
structure Builder where
  build_server : Bool
  protoc_args : List String
deriving DecidableEq

/-- `tonic_build::configure()` — the starting builder (server generation is on
by default in the library; `src/build.rs` sets it explicitly regardless). -/
def configure : Builder :=
  { build_server := true, protoc_args := [] }

/-- `.build_server(v)` from `src/build.rs` line 3: sets the server-generation
switch. -/
def Builder.set_build_server (b : Builder) (v : Bool) : Builder :=
  { b with build_server := v }

/-- `.protoc_arg(a)` from `src/build.rs` line 4: appends one extra argument
for the schema compiler. -/
def Builder.protoc_arg (b : Builder) (a : String) : Builder :=
  { b with protoc_args := b.protoc_args ++ [a] }

/-- The builder value that `src/build.rs` passes to `.compile`:
`configure().build_server(true).protoc_arg("--experimental_allow_proto3_optional")`. -/
def mainBuilder : Builder :=
  (configure.set_build_server true).protoc_arg "--experimental_allow_proto3_optional"

/-- `fn main` of `src/build.rs`, parametric in the external `.compile` call:
it invokes `compile` on `mainBuilder` with entry file `proto/services.proto`
and import directory `proto`, propagates an error with `?`, and returns `Ok(())`. -/
def mainFn (compile : Builder → List String → List String → Except CompileErr Unit) :
    Except CompileErr Unit :=
  match compile mainBuilder ["proto/services.proto"] ["proto"] with
  | Except.error e => Except.error e
  | Except.ok _ => Except.ok ()

/-- The surfaces the stub generator emits for a service declaration. -/
inductive Surface
  | clientBindings
  | serverDispatch
deriving DecidableEq

/-- Modelled from the spec: the Service Stub Generator (§4.5, §6) is absent
from `src/`; per the spec it emits the client invocation surface always, and
the server-side dispatch scaffold exactly when `build_server` is true. -/
def emittedSurfaces (build_server : Bool) : List Surface :=
  [Surface.clientBindings] ++ (if build_server then [Surface.serverDispatch] else [])

/-- The declared-type class of a field, as the parser sees it. -/
inductive TypeKind
  | scalar
  | enum
  | message
deriving DecidableEq

/-- A raw field declaration as seen by the schema parser: its type class,
whether it is repeated, and whether it carries the explicit optional-presence
modifier. -/
structure FieldSrc where
  typeKind : TypeKind
  isRepeated : Bool
  hasOptionalModifier : Bool
deriving DecidableEq

/-- Parse-stage rejections of the optional-presence modifier. -/
inductive ParseErr
  | optionalNotEnabled
  | optionalOnMessage
  | optionalOnRepeated
deriving DecidableEq

/-- The presence policy of a field (§4.3): implicit-default, or
explicitly-optional when the experimental extension is enabled. -/
inductive Presence
  | implicit
  | explicitOptional
deriving DecidableEq

/-- Modelled from the spec: the Schema Lexer/Parser (§4.1) is absent from
`src/`.  Per the spec, when `allow_explicit_optional_presence` is false the
optional-presence modifier is rejected as a syntax error; when true it is
accepted on non-message, non-repeated fields and rejected on a field that is
already a message type (or repeated). -/
def parseFieldPresence (allow : Bool) (f : FieldSrc) : Except ParseErr Presence :=
  if f.hasOptionalModifier then
    if allow = false then Except.error ParseErr.optionalNotEnabled
    else if f.typeKind = TypeKind.message then Except.error ParseErr.optionalOnMessage
    else if f.isRepeated then Except.error ParseErr.optionalOnRepeated
    else Except.ok Presence.explicitOptional
  else Except.ok Presence.implicit

end BuildRs

namespace Wire

/-- Base-128 varint encoding of a natural number: seven payload bits per byte,
high bit set on every byte except the last.  Every emitted byte is `< 256`. -/
def varintEncode (n : Nat) : List Nat :=
  if h : n < 128 then [n]
  else (n % 128 + 128) :: varintEncode (n / 128)
decreasing_by exact Nat.div_lt_self (by omega) (by omega)

/-- Base-128 varint decoding: returns the decoded value and the remaining
bytes, or `none` on truncated input (§4.4: invalid varint is fatal). -/
def varintDecode : List Nat → Option (Nat × List Nat)
  | [] => none
  | b :: rest =>
    if b < 128 then some (b, rest)
    else
      match varintDecode rest with
      | none => none
      | some (n, rest2) => some (n * 128 + (b - 128), rest2)

/-- The payload of one wire record: a varint value (wire type 0) or a
length-delimited byte block (wire type 2). -/
inductive RecPayload
  | varintP (v : Nat)
  | lenP (bs : List Nat)
deriving DecidableEq

/-- One wire record: a field number together with its payload. -/
structure Rec where
  number : Nat
  payload : RecPayload
deriving DecidableEq

/-- Encoding of one record: the tag varint (field number shifted past the
3-bit wire type) followed by the payload bytes. -/
def encodeRec (r : Rec) : List Nat :=
  match r.payload with
  | RecPayload.varintP v => varintEncode (r.number * 8 + 0) ++ varintEncode v
  | RecPayload.lenP bs => varintEncode (r.number * 8 + 2) ++ varintEncode bs.length ++ bs

/-- Parse one record off the front of `bytes`.  Returns the record, the raw
bytes it occupied, and the remaining bytes; fails on truncated input, invalid
varint, invalid field length, or an unsupported wire type. -/
def readRec (bytes : List Nat) : Option (Rec × List Nat × List Nat) :=
  match varintDecode bytes with
  | none => none
  | some (tag, r1) =>
    if tag % 8 = 0 then
      match varintDecode r1 with
      | none => none
      | some (v, r2) =>
        some (⟨tag / 8, RecPayload.varintP v⟩, bytes.take (bytes.length - r2.length), r2)
    else if tag % 8 = 2 then
      match varintDecode r1 with
      | none => none
      | some (len, r2) =>
        if len ≤ r2.length then
          some (⟨tag / 8, RecPayload.lenP (r2.take len)⟩,
            bytes.take (bytes.length - (r2.drop len).length), r2.drop len)
        else none
    else none

/-- Parse a whole byte sequence into its records, each paired with the raw
bytes it occupied.  `fuel` bounds the number of records; callers use
`bytes.length`, which suffices since every record occupies at least one byte. -/
def readRecsFuel : Nat → List Nat → Option (List (Rec × List Nat))
  | _, [] => some []
  | 0, _ :: _ => none
  | fuel + 1, b :: rest =>
    match readRec (b :: rest) with
    | none => none
    | some (r, raw, remaining) =>
      match readRecsFuel fuel remaining with
      | none => none
      | some rs => some ((r, raw) :: rs)

/-- Parse a whole byte sequence into its records (with raw spans). -/
def readRecs (bytes : List Nat) : Option (List (Rec × List Nat)) :=
  readRecsFuel bytes.length bytes

/-- A record/raw-span pair is self-describing: parsing its raw bytes, with any
continuation, yields exactly this record and span. -/
def ReadsAs (p : Rec × List Nat) : Prop :=
  ∀ rest', readRec (p.2 ++ rest') = some (p.1, p.2, rest')

end Wire

namespace Codec

open Wire

/-- The repetition/presence shape of a field (§4.3): a singular scalar/enum
field with its presence policy, or a repeated (packed) scalar field. -/
inductive FieldKind
  | singular (presence : BuildRs.Presence)
  | repeated
deriving DecidableEq

/-- Modelled from the spec: the Field Model Builder (§4.3) is absent from
`src/`; a `FieldModel` is its per-field semantic descriptor — the wire number
together with the repetition/presence shape. -/
structure FieldModel where
  number : Nat
  kind : FieldKind
deriving DecidableEq

/-- A message schema: the ordered field models of one `MessageDecl`. -/
structure MessageSchema where
  fields : List FieldModel
deriving DecidableEq

/-- Wire-number validity (§4.3): in the inclusive range `[1, 2^29 − 1]` and
outside the implementation-reserved sub-range `[19000, 19999]`. -/
def numberValid (n : Nat) : Bool :=
  decide (1 ≤ n) && decide (n ≤ 2 ^ 29 - 1) && !(decide (19000 ≤ n) && decide (n ≤ 19999))

/-- A well-formed schema: wire numbers unique within the message and each one
valid. -/
def MessageSchema.wf (s : MessageSchema) : Prop :=
  (s.fields.map FieldModel.number).Nodup ∧ ∀ fm ∈ s.fields, numberValid fm.number = true

instance (s : MessageSchema) : Decidable s.wf := by
  unfold MessageSchema.wf; infer_instance

/-- The value held by one field of a message: an implicit-policy scalar (absent
is indistinguishable from the default `0`), an explicit-optional scalar
(`none` = absent, distinguishable from `some 0`), or a repeated scalar. -/
inductive FieldValue
  | implicitVal (v : Nat)
  | optionalVal (v : Option Nat)
  | repeatedVal (vs : List Nat)
deriving DecidableEq

/-- The decoder's starting value for a field: default `0`, absent, or empty. -/
def initValue : FieldKind → FieldValue
  | FieldKind.singular BuildRs.Presence.implicit => FieldValue.implicitVal 0
  | FieldKind.singular BuildRs.Presence.explicitOptional => FieldValue.optionalVal none
  | FieldKind.repeated => FieldValue.repeatedVal []

/-- Whether a field value has the shape its field kind requires. -/
def matchesKind : FieldKind → FieldValue → Bool
  | FieldKind.singular BuildRs.Presence.implicit, FieldValue.implicitVal _ => true
  | FieldKind.singular BuildRs.Presence.explicitOptional, FieldValue.optionalVal _ => true
  | FieldKind.repeated, FieldValue.repeatedVal _ => true
  | _, _ => false

/-- A message value: one field value per schema field (positionally), plus the
opaquely preserved raw bytes of unknown fields (§4.4). -/
structure MessageValue where
  values : List FieldValue
  unknown : List Nat
deriving DecidableEq

/-- A message value is valid for a schema when it has one shape-correct value
per field. -/
def MessageValue.matches (s : MessageSchema) (m : MessageValue) : Prop :=
  List.Forall₂ (fun fm fv => matchesKind (FieldModel.kind fm) fv = true) s.fields m.values

instance (s : MessageSchema) (m : MessageValue) : Decidable (m.matches s) := by
  unfold MessageValue.matches; infer_instance

/-- Packed encoding of a repeated scalar field's payload (§4.4): the varints
of the elements, concatenated. -/
def packEncode (vs : List Nat) : List Nat :=
  (vs.map varintEncode).flatten

/-- The wire records one field contributes (§4.3, §4.4): nothing for an
implicit-policy default, an absent optional, or an empty repeated field; one
varint record for a present singular value; one packed length-delimited record
for a non-empty repeated field. -/
def fieldRecs (fm : FieldModel) (fv : FieldValue) : List Rec :=
  match fv with
  | FieldValue.implicitVal 0 => []
  | FieldValue.implicitVal (v + 1) => [⟨fm.number, RecPayload.varintP (v + 1)⟩]
  | FieldValue.optionalVal none => []
  | FieldValue.optionalVal (some v) => [⟨fm.number, RecPayload.varintP v⟩]
  | FieldValue.repeatedVal [] => []
  | FieldValue.repeatedVal vs => [⟨fm.number, RecPayload.lenP (packEncode vs)⟩]

/-- The bytes one field contributes to the encoded message. -/
def encodeField (fm : FieldModel) (fv : FieldValue) : List Nat :=
  ((fieldRecs fm fv).map encodeRec).flatten

/-- Modelled from the spec: the Message Codec Generator's encoder (§4.4) is
absent from `src/`; per the spec it emits the fields' records in ascending
wire-number order and re-emits preserved unknown-field bytes verbatim. -/
def encodeMessage (s : MessageSchema) (m : MessageValue) : List Nat :=
  (((s.fields.zip m.values).mergeSort
      (fun a b => Nat.ble (FieldModel.number a.1) (FieldModel.number b.1))).map
    (fun p => encodeField p.1 p.2)).flatten ++ m.unknown

/-- The records one schema/value pair contributes, each with its encoded raw
bytes. -/
def recsOfPair (p : FieldModel × FieldValue) : List (Rec × List Nat) :=
  (fieldRecs p.1 p.2).map (fun r => (r, encodeRec r))

/-- The records a pair list contributes, in order. -/
def recsOfPairs (ps : List (FieldModel × FieldValue)) : List (Rec × List Nat) :=
  (ps.map recsOfPair).flatten

/-- Decode a packed repeated-scalar payload into its element values; fails on
a trailing invalid varint.  `fuel`-bounded, used with `fuel = bytes.length`. -/
def parsePackedFuel : Nat → List Nat → Option (List Nat)
  | _, [] => some []
  | 0, _ :: _ => none
  | fuel + 1, b :: rest =>
    match varintDecode (b :: rest) with
    | none => none
    | some (v, rest2) =>
      match parsePackedFuel fuel rest2 with
      | none => none
      | some vs => some (v :: vs)

/-- Decode a packed repeated-scalar payload into its element values. -/
def parsePacked (bs : List Nat) : Option (List Nat) :=
  parsePackedFuel bs.length bs

/-- Apply one record's payload to the current value of the field it targets:
the last occurrence wins for a singular field, occurrences accumulate in order
for a repeated field, and a wire-type or payload mismatch is a decode error. -/
def updateOne (k : FieldKind) (fv : FieldValue) (p : RecPayload) : Option FieldValue :=
  match k, p with
  | FieldKind.singular BuildRs.Presence.implicit, RecPayload.varintP v =>
      some (FieldValue.implicitVal v)
  | FieldKind.singular BuildRs.Presence.explicitOptional, RecPayload.varintP v =>
      some (FieldValue.optionalVal (some v))
  | FieldKind.repeated, RecPayload.lenP bs =>
      match parsePacked bs, fv with
      | some ws, FieldValue.repeatedVal vs => some (FieldValue.repeatedVal (vs ++ ws))
      | _, _ => none
  | _, _ => none

/-- Walk the schema's fields and the current values in parallel, applying a
record to the field whose number matches.  `none` is a decode error;
`some none` means no field model matches (an unknown field); `some (some vs)`
is the updated value list. -/
def updateFields : List FieldModel → List FieldValue → Rec → Option (Option (List FieldValue))
  | fm :: fms, fv :: fvs, r =>
    if fm.number = r.number then
      match updateOne fm.kind fv r.payload with
      | none => none
      | some fv' => some (some (fv' :: fvs))
    else
      match updateFields fms fvs r with
      | none => none
      | some none => some none
      | some (some fvs') => some (some (fv :: fvs'))
  | _, _, _ => some none

/-- Whether one record is acceptable against the schema's field list: an
unknown field number always is; a known field requires the matching wire type
(and, for a packed payload, a parseable payload). -/
def recordOKFields : List FieldModel → Rec → Bool
  | [], _ => true
  | fm :: fms, r =>
    if fm.number = r.number then
      match fm.kind, r.payload with
      | FieldKind.singular _, RecPayload.varintP _ => true
      | FieldKind.repeated, RecPayload.lenP bs => (parsePacked bs).isSome
      | _, _ => false
    else recordOKFields fms r

/-- Apply one parsed record (with its raw byte span) to a message under
construction: a known field is updated, an unknown field's raw bytes are
appended to the opaque unknown buffer. -/
def applyRec (s : MessageSchema) (m : MessageValue) (rr : Rec × List Nat) :
    Option MessageValue :=
  match updateFields s.fields m.values rr.1 with
  | none => none
  | some none => some { m with unknown := m.unknown ++ rr.2 }
  | some (some vs) => some { m with values := vs }

/-- Fold a record sequence into a message value, failing fast on the first bad
record (§4.4: a decode failure is fatal for the whole message). -/
def decodeRecs (s : MessageSchema) : MessageValue → List (Rec × List Nat) → Option MessageValue
  | m, [] => some m
  | m, rr :: rs =>
    match applyRec s m rr with
    | none => none
    | some m' => decodeRecs s m' rs

/-- The decoder's starting message: every field at its initial value, no
unknown bytes. -/
def initMessage (s : MessageSchema) : MessageValue :=
  ⟨s.fields.map (fun fm => initValue (FieldModel.kind fm)), []⟩

/-- Modelled from the spec: the Message Codec Generator's decoder (§4.4) is
absent from `src/`; per the spec it parses the bytes into records in any
order, lets the last occurrence win for singular fields, accumulates repeated
fields, preserves unknown fields opaquely, and fails fast on malformed bytes. -/
def decode (s : MessageSchema) (bytes : List Nat) : Option MessageValue :=
  match readRecs bytes with
  | none => none
  | some rs => decodeRecs s (initMessage s) rs

/-- The singular field value holding scalar `v` under presence policy `pres`. -/
def mkSingular (pres : BuildRs.Presence) (v : Nat) : FieldValue :=
  match pres with
  | BuildRs.Presence.implicit => FieldValue.implicitVal v
  | BuildRs.Presence.explicitOptional => FieldValue.optionalVal (some v)

/-- The varint values carried by the records targeting field number `n`, in
order of appearance. -/
def singularOccs (n : Nat) (rs : List Rec) : List Nat :=
  rs.filterMap (fun r =>
    match r.payload with
    | RecPayload.varintP v => if r.number = n then some v else none
    | RecPayload.lenP _ => none)

/-- The decoded packed payloads of the length-delimited records targeting
field number `n`, in order of appearance. -/
def packedOccs (n : Nat) (rs : List Rec) : List (List Nat) :=
  rs.filterMap (fun r =>
    match r.payload with
    | RecPayload.varintP _ => none
    | RecPayload.lenP bs => if r.number = n then parsePacked bs else none)

/-- A well-formed unknown-field buffer for schema `s`: it parses into records
none of which matches a field model of `s`. -/
def unknownWF (s : MessageSchema) (bs : List Nat) : Prop :=
  match readRecs bs with
  | none => False
  | some rs => ∀ rr ∈ rs, ∀ fm ∈ s.fields, FieldModel.number fm ≠ Rec.number rr.1

instance (s : MessageSchema) (bs : List Nat) : Decidable (unknownWF s bs) := by
  unfold unknownWF
  cases readRecs bs with
  | none => exact isFalse (fun h => h)
  | some rs => infer_instance

/-- A valid message value for schema `s`: shape-correct field values plus a
well-formed unknown-field buffer. -/
def MessageValue.valid (s : MessageSchema) (m : MessageValue) : Prop :=
  m.matches s ∧ unknownWF s m.unknown

instance (s : MessageSchema) (m : MessageValue) : Decidable (m.valid s) := by
  unfold MessageValue.valid; infer_instance

end Codec

namespace Compile

/-- A resolved top-level declaration: its fully qualified name and its
resolved content. -/
structure Decl where
  fqName : String
  body : String
deriving DecidableEq

/-- Resolution-phase failure: two declarations share a fully qualified name. -/
inductive ResolveErr
  | duplicateDeclaration
deriving DecidableEq

/-- The stable mapping from one schema declaration to generated source
(§6: deterministic symbol naming). -/
def genDecl (d : Decl) : String :=
  d.fqName ++ ":" ++ d.body ++ ";"

/-- The total declaration order used to canonicalize generation order:
by fully qualified name, ties broken by body. -/
def declLE (a b : Decl) : Bool :=
  if a.fqName = b.fqName then a.body ≤ b.body else a.fqName < b.fqName

/-- Modelled from the spec: the Symbol Resolver and generator back end
(§4.2, §6) are absent from `src/`; per the spec, names are collected first
(duplicates are a fatal `DuplicateDeclarationError`) and generation then
proceeds over the declarations in a canonical order, so that declaration
order across files never changes the generated output. -/
def compileDecls (decls : List Decl) : Except ResolveErr String :=
  if (decls.map Decl.fqName).Nodup then
    Except.ok (String.join ((decls.mergeSort declLE).map genDecl))
  else Except.error ResolveErr.duplicateDeclaration

/-- A named message schema handed to the field-model/codec stages. -/
structure NamedMessage where
  name : String
  schema : Codec.MessageSchema
deriving DecidableEq

/-- Fatal schema errors of the field-model stage (§4.3, §7). -/
inductive SchemaErr
  | duplicateWireNumber (msg : String)
  | invalidWireNumber (msg : String)
deriving DecidableEq

/-- One generated artifact. -/
structure OutputFile where
  path : String
  contents : String
deriving DecidableEq

/-- Wire-number validation of one message (§4.3): numbers must be unique
within the message and each in range; violation is a fatal `SchemaErr`. -/
def validateMessage (m : NamedMessage) : Option SchemaErr :=
  if ¬ (m.schema.fields.map Codec.FieldModel.number).Nodup then
    some (SchemaErr.duplicateWireNumber m.name)
  else if ¬ (∀ fm ∈ m.schema.fields, Codec.numberValid (Codec.FieldModel.number fm) = true) then
    some (SchemaErr.invalidWireNumber m.name)
  else none

/-- The generated artifact for one message declaration. -/
def genMessageCode (m : NamedMessage) : OutputFile :=
  ⟨m.name ++ ".rs", "message:" ++ m.name⟩

/-- Modelled from the spec: the codegen driver (§7) is absent from `src/`;
per the spec every compiler-phase error aborts the entire invocation before
anything is written, so output is all-or-nothing. -/
def compileSchemas (msgs : List NamedMessage) : Except SchemaErr (List OutputFile) :=
  match msgs.findSome? validateMessage with
  | some e => Except.error e
  | none => Except.ok (msgs.map genMessageCode)

/-- The files a compilation run writes to the output directory: none at all
when it failed. -/
def writtenFiles (r : Except SchemaErr (List OutputFile)) : List OutputFile :=
  match r with
  | Except.error _ => []
  | Except.ok fs => fs

end Compile

namespace Wire

/-! ### Varint lemmas -/

theorem varintEncode_ne_nil (n : Nat) : varintEncode n ≠ [] := by
  unfold varintEncode
  split <;> simp

theorem varintDecode_varintEncode (n : Nat) (rest : List Nat) :
    varintDecode (varintEncode n ++ rest) = some (n, rest) := by
  induction n using Nat.strong_induction_on with
  | _ n ih =>
    unfold varintEncode
    split
    · next h =>
      simp [varintDecode, h]
    · next h =>
      have h128 : ¬ (n % 128 + 128 < 128) := by omega
      have hdiv : n / 128 < n := Nat.div_lt_self (by omega) (by omega)
      have hval : n / 128 * 128 + (n % 128 + 128 - 128) = n := by omega
      simp only [List.cons_append, varintDecode, if_neg h128, List.append_eq,
        ih (n / 128) hdiv, hval]

/-- Decoding a varint consumes a nonempty prefix, and succeeds on any
continuation of that prefix. -/
theorem varintDecode_split {bs : List Nat} {n : Nat} {rest : List Nat}
    (h : varintDecode bs = some (n, rest)) :
    ∃ pre, bs = pre ++ rest ∧ pre ≠ [] ∧
      ∀ rest', varintDecode (pre ++ rest') = some (n, rest') := by
  induction bs generalizing n rest with
  | nil => simp [varintDecode] at h
  | cons b t ih =>
    by_cases hb : b < 128
    · simp only [varintDecode, if_pos hb, Option.some.injEq, Prod.mk.injEq] at h
      obtain ⟨rfl, rfl⟩ := h
      refine ⟨[b], by simp, by simp, fun rest' => ?_⟩
      simp [varintDecode, hb]
    · simp only [varintDecode, if_neg hb] at h
      cases ht : varintDecode t with
      | none => rw [ht] at h; simp at h
      | some p =>
        obtain ⟨m, rest2⟩ := p
        rw [ht] at h
        simp only [Option.some.injEq, Prod.mk.injEq] at h
        obtain ⟨pre, hpre, hne, hloc⟩ := ih ht
        refine ⟨b :: pre, ?_, by simp, fun rest' => ?_⟩
        · simp [hpre, h.2]
        · simp [varintDecode, hb, hloc rest', h.1]

end Wire

namespace Wire

/-! ### Record lemmas -/

theorem take_sub_append (A B : List Nat) :
    (A ++ B).take ((A ++ B).length - B.length) = A := by
  simp [List.length_append]

theorem readRec_encodeRec (r : Rec) (rest : List Nat) :
    readRec (encodeRec r ++ rest) = some (r, encodeRec r, rest) := by
  obtain ⟨n, p⟩ := r
  cases p with
  | varintP v =>
    have h8 : (n * 8 + 0) % 8 = 0 := by omega
    have hd : (n * 8 + 0) / 8 = n := by omega
    have henc : encodeRec ⟨n, RecPayload.varintP v⟩ =
        varintEncode (n * 8 + 0) ++ varintEncode v := rfl
    rw [henc]
    unfold readRec
    have hv1 : varintDecode ((varintEncode (n * 8 + 0) ++ varintEncode v) ++ rest) =
        some (n * 8 + 0, varintEncode v ++ rest) := by
      rw [List.append_assoc]; exact varintDecode_varintEncode _ _
    rw [hv1]
    simp only []
    rw [if_pos h8, varintDecode_varintEncode]
    simp only []
    rw [hd, take_sub_append]
  | lenP bs =>
    have h8 : ¬ (n * 8 + 2) % 8 = 0 := by omega
    have h8' : (n * 8 + 2) % 8 = 2 := by omega
    have hd : (n * 8 + 2) / 8 = n := by omega
    have henc : encodeRec ⟨n, RecPayload.lenP bs⟩ =
        (varintEncode (n * 8 + 2) ++ varintEncode bs.length) ++ bs := by
      simp [encodeRec]
    rw [henc]
    unfold readRec
    have hv1 : varintDecode (((varintEncode (n * 8 + 2) ++ varintEncode bs.length) ++ bs)
          ++ rest) =
        some (n * 8 + 2, varintEncode bs.length ++ (bs ++ rest)) := by
      rw [List.append_assoc, List.append_assoc]; exact varintDecode_varintEncode _ _
    rw [hv1]
    simp only []
    rw [if_neg h8, if_pos h8', varintDecode_varintEncode]
    simp only []
    rw [if_pos (by simp)]
    rw [List.take_left, List.drop_left, hd, take_sub_append]

theorem readRec_split {bytes : List Nat} {r : Rec} {raw rest : List Nat}
    (h : readRec bytes = some (r, raw, rest)) :
    bytes = raw ++ rest ∧ raw ≠ [] ∧
      ∀ rest', readRec (raw ++ rest') = some (r, raw, rest') := by
  unfold readRec at h
  cases hv : varintDecode bytes with
  | none => rw [hv] at h; simp at h
  | some p =>
    obtain ⟨tag, r1⟩ := p
    rw [hv] at h
    simp only [] at h
    obtain ⟨pre1, hb1, hne1, loc1⟩ := varintDecode_split hv
    by_cases h0 : tag % 8 = 0
    · rw [if_pos h0] at h
      cases hv2 : varintDecode r1 with
      | none => rw [hv2] at h; simp at h
      | some q =>
        obtain ⟨v, r2⟩ := q
        rw [hv2] at h
        simp only [Option.some.injEq, Prod.mk.injEq] at h
        obtain ⟨hr, hraw, hrest⟩ := h
        subst hrest
        obtain ⟨pre2, hb2, hne2, loc2⟩ := varintDecode_split hv2
        have hbytes : bytes = (pre1 ++ pre2) ++ r2 := by
          rw [hb1, hb2, List.append_assoc]
        have hraw' : raw = pre1 ++ pre2 := by
          rw [← hraw, hbytes, take_sub_append]
        subst hraw'
        refine ⟨hbytes, by simp [hne1], fun rest' => ?_⟩
        unfold readRec
        have hv1' : varintDecode ((pre1 ++ pre2) ++ rest') =
            some (tag, pre2 ++ rest') := by
          rw [List.append_assoc]; exact loc1 _
        rw [hv1']
        simp only []
        rw [if_pos h0, loc2]
        simp only []
        rw [take_sub_append, ← hr]
    · rw [if_neg h0] at h
      by_cases h2 : tag % 8 = 2
      · rw [if_pos h2] at h
        cases hv2 : varintDecode r1 with
        | none => rw [hv2] at h; simp at h
        | some q =>
          obtain ⟨len, r2⟩ := q
          rw [hv2] at h
          simp only [] at h
          by_cases hlen : len ≤ r2.length
          · rw [if_pos hlen] at h
            simp only [Option.some.injEq, Prod.mk.injEq] at h
            obtain ⟨hr, hraw, hrest⟩ := h
            subst hrest
            obtain ⟨pre2, hb2, hne2, loc2⟩ := varintDecode_split hv2
            have hlentake : (r2.take len).length = len := by
              simp [List.length_take]; omega
            have hbytes : bytes = ((pre1 ++ pre2) ++ r2.take len) ++ r2.drop len := by
              rw [hb1, hb2]
              conv_lhs => rw [← List.take_append_drop len r2]
              simp [List.append_assoc]
            have hraw' : raw = (pre1 ++ pre2) ++ r2.take len := by
              rw [← hraw, hbytes, take_sub_append]
            subst hraw'
            refine ⟨hbytes, by simp [hne1], fun rest' => ?_⟩
            unfold readRec
            have hv1' : varintDecode (((pre1 ++ pre2) ++ r2.take len) ++ rest') =
                some (tag, pre2 ++ (r2.take len ++ rest')) := by
              rw [List.append_assoc, List.append_assoc]; exact loc1 _
            rw [hv1']
            simp only []
            rw [if_neg h0, if_pos h2, loc2]
            simp only []
            rw [if_pos (by simp [hlentake])]
            rw [List.take_left' hlentake, List.drop_left' hlentake]
            rw [take_sub_append, ← hr]
          · rw [if_neg hlen] at h; simp at h
      · rw [if_neg h2] at h; simp at h

end Wire

namespace Wire

/-! ### Whole-stream parsing lemmas -/

theorem readRec_nil : readRec ([] : List Nat) = none := rfl

theorem readRecsFuel_nil (fuel : Nat) : readRecsFuel fuel [] = some [] := by
  cases fuel <;> rfl

theorem readRecsFuel_flatten :
    ∀ (L : List (Rec × List Nat)), (∀ p ∈ L, ReadsAs p) →
      ∀ fuel, ((L.map Prod.snd).flatten).length ≤ fuel →
        readRecsFuel fuel ((L.map Prod.snd).flatten) = some L := by
  intro L
  induction L with
  | nil => intro _ fuel _; exact readRecsFuel_nil fuel
  | cons p L ih =>
    intro hall fuel hfuel
    obtain ⟨r, raw⟩ := p
    have hra : ReadsAs (r, raw) := hall _ (by simp)
    have hraw_ne : raw ≠ [] := by
      intro hnil
      have hx := hra []
      rw [hnil] at hx
      simp [readRec, varintDecode] at hx
    obtain ⟨b, t, rfl⟩ : ∃ b t, raw = b :: t := by
      cases raw with
      | nil => exact absurd rfl hraw_ne
      | cons b t => exact ⟨b, t, rfl⟩
    simp only [List.map_cons, List.flatten_cons] at hfuel ⊢
    rw [List.cons_append]
    cases fuel with
    | zero => simp at hfuel
    | succ fuel =>
      have hread := hra ((L.map Prod.snd).flatten)
      rw [List.cons_append] at hread
      simp only [readRecsFuel]
      rw [hread]
      simp only []
      rw [ih (fun q hq => hall q (by simp [hq])) fuel
        (by simp only [List.length_append, List.length_cons] at hfuel ⊢; omega)]

theorem readRecsFuel_split :
    ∀ (fuel : Nat) (bytes : List Nat) (rs : List (Rec × List Nat)),
      readRecsFuel fuel bytes = some rs →
        (rs.map Prod.snd).flatten = bytes ∧ ∀ p ∈ rs, ReadsAs p := by
  intro fuel
  induction fuel with
  | zero =>
    intro bytes rs h
    cases bytes with
    | nil =>
      simp only [readRecsFuel, Option.some.injEq] at h
      subst h
      exact ⟨rfl, by simp⟩
    | cons b t => simp [readRecsFuel] at h
  | succ fuel ih =>
    intro bytes rs h
    cases bytes with
    | nil =>
      simp only [readRecsFuel, Option.some.injEq] at h
      subst h
      exact ⟨rfl, by simp⟩
    | cons b t =>
      simp only [readRecsFuel] at h
      cases hr : readRec (b :: t) with
      | none => rw [hr] at h; simp at h
      | some q =>
        obtain ⟨r, raw, remaining⟩ := q
        rw [hr] at h
        simp only [] at h
        cases hrs : readRecsFuel fuel remaining with
        | none => rw [hrs] at h; simp at h
        | some rs' =>
          rw [hrs] at h
          simp only [Option.some.injEq] at h
          subst h
          obtain ⟨hsplit, _, hloc⟩ := readRec_split hr
          obtain ⟨hflat, hall⟩ := ih remaining rs' hrs
          constructor
          · simp only [List.map_cons, List.flatten_cons, hflat]
            exact hsplit.symm
          · intro p hp
            rcases List.mem_cons.mp hp with hp | hp
            · subst hp; exact hloc
            · exact hall p hp

theorem readRecs_flatten (L : List (Rec × List Nat)) (h : ∀ p ∈ L, ReadsAs p) :
    readRecs ((L.map Prod.snd).flatten) = some L :=
  readRecsFuel_flatten L h _ le_rfl

theorem readRecs_elim {bytes : List Nat} {rs : List (Rec × List Nat)}
    (h : readRecs bytes = some rs) :
    (rs.map Prod.snd).flatten = bytes ∧ ∀ p ∈ rs, ReadsAs p :=
  readRecsFuel_split _ _ _ h

end Wire

namespace Codec

open Wire

/-! ### Packed-payload lemmas -/

theorem parsePackedFuel_packEncode :
    ∀ (vs : List Nat) (fuel : Nat), (packEncode vs).length ≤ fuel →
      parsePackedFuel fuel (packEncode vs) = some vs := by
  intro vs
  induction vs with
  | nil =>
    intro fuel _
    show parsePackedFuel fuel [] = some []
    cases fuel <;> rfl
  | cons v vs ih =>
    intro fuel hfuel
    have henc : packEncode (v :: vs) = varintEncode v ++ packEncode vs := by
      simp [packEncode]
    rw [henc] at hfuel ⊢
    obtain ⟨b, t, hbt⟩ : ∃ b t, varintEncode v = b :: t := by
      cases hv : varintEncode v with
      | nil => exact absurd hv (varintEncode_ne_nil v)
      | cons b t => exact ⟨b, t, rfl⟩
    rw [hbt]
    rw [hbt, List.length_append, List.length_cons] at hfuel
    cases fuel with
    | zero => omega
    | succ fuel =>
      rw [List.cons_append]
      simp only [parsePackedFuel]
      have hdec := varintDecode_varintEncode v (packEncode vs)
      rw [hbt, List.cons_append] at hdec
      rw [hdec]
      simp only []
      rw [ih fuel (by omega)]

theorem parsePacked_packEncode (vs : List Nat) :
    parsePacked (packEncode vs) = some vs :=
  parsePackedFuel_packEncode vs _ le_rfl

/-! ### Field-update lemmas -/

theorem updateFields_of_not_mem :
    ∀ (fms : List FieldModel) (fvs : List FieldValue) (r : Rec),
      (∀ fm ∈ fms, FieldModel.number fm ≠ r.number) →
      updateFields fms fvs r = some none := by
  intro fms
  induction fms with
  | nil => intro fvs r _; rfl
  | cons fm fms ih =>
    intro fvs r hnone
    cases fvs with
    | nil => rfl
    | cons fv fvs =>
      have hne : ¬ fm.number = r.number := hnone fm (by simp)
      simp only [updateFields, if_neg hne]
      rw [ih fvs r (fun g hg => hnone g (by simp [hg]))]

theorem updateFields_some_none :
    ∀ (fms : List FieldModel) (fvs : List FieldValue) (r : Rec),
      fvs.length = fms.length → updateFields fms fvs r = some none →
      ∀ fm ∈ fms, FieldModel.number fm ≠ r.number := by
  intro fms
  induction fms with
  | nil => intro fvs r _ _ fm hm; simp at hm
  | cons fm0 fms ih =>
    intro fvs r hlen h fm hm
    cases fvs with
    | nil => simp at hlen
    | cons fv fvs =>
      by_cases hn : fm0.number = r.number
      · rw [updateFields, if_pos hn] at h
        cases hu : updateOne fm0.kind fv r.payload with
        | none => rw [hu] at h; simp at h
        | some fv' => rw [hu] at h; simp at h
      · rw [updateFields, if_neg hn] at h
        cases hrec : updateFields fms fvs r with
        | none => rw [hrec] at h; simp at h
        | some o =>
          cases o with
          | none =>
            rcases List.mem_cons.mp hm with rfl | hm'
            · exact hn
            · exact ih fvs r (by simpa using hlen) hrec fm hm'
          | some fvs2 => rw [hrec] at h; simp at h

theorem updateFields_char :
    ∀ (fms : List FieldModel) (fvs : List FieldValue) (r : Rec) (fvs' : List FieldValue),
      updateFields fms fvs r = some (some fvs') →
      ∃ i fm fv fv2, fms[i]? = some fm ∧ fvs[i]? = some fv ∧
        fm.number = r.number ∧ updateOne fm.kind fv r.payload = some fv2 ∧
        fvs' = fvs.set i fv2 ∧
        ∀ j fm', j < i → fms[j]? = some fm' → FieldModel.number fm' ≠ r.number := by
  intro fms
  induction fms with
  | nil => intro fvs r fvs' h; simp [updateFields] at h
  | cons fm0 fms ih =>
    intro fvs r fvs' h
    cases fvs with
    | nil => simp [updateFields] at h
    | cons fv0 fvs =>
      by_cases hn : fm0.number = r.number
      · rw [updateFields, if_pos hn] at h
        cases hu : updateOne fm0.kind fv0 r.payload with
        | none => rw [hu] at h; simp at h
        | some fv2 =>
          rw [hu] at h
          simp only [Option.some.injEq] at h
          refine ⟨0, fm0, fv0, fv2, by simp, by simp, hn, hu, ?_, ?_⟩
          · simp [← h]
          · intro j fm' hj _; omega
      · rw [updateFields, if_neg hn] at h
        cases hrec : updateFields fms fvs r with
        | none => rw [hrec] at h; simp at h
        | some o =>
          cases o with
          | none => rw [hrec] at h; simp at h
          | some fvs2 =>
            rw [hrec] at h
            simp only [Option.some.injEq] at h
            obtain ⟨i, fm, fv, fv2, h1, h2, h3, h4, h5, h6⟩ := ih fvs r fvs2 hrec
            refine ⟨i + 1, fm, fv, fv2, by simpa using h1, by simpa using h2, h3, h4, ?_, ?_⟩
            · rw [← h, h5]; rfl
            · intro j fm' hj hget
              cases j with
              | zero =>
                simp only [List.getElem?_cons_zero, Option.some.injEq] at hget
                rw [← hget]; exact hn
              | succ k =>
                exact h6 k fm' (by omega) (by simpa using hget)

theorem updateOne_matches {k : FieldKind} {fv fv' : FieldValue} {p : RecPayload}
    (h : updateOne k fv p = some fv') : matchesKind k fv' = true := by
  cases k with
  | singular pres =>
    cases pres <;> cases p <;> simp only [updateOne] at h <;>
      first
        | (simp only [Option.some.injEq] at h; rw [← h]; rfl)
        | simp at h
  | repeated =>
    cases p with
    | varintP v => simp [updateOne] at h
    | lenP bs =>
      simp only [updateOne] at h
      cases hp : parsePacked bs with
      | none => rw [hp] at h; simp at h
      | some ws =>
        rw [hp] at h
        cases fv with
        | implicitVal v => simp at h
        | optionalVal v => simp at h
        | repeatedVal vs =>
          simp only [Option.some.injEq] at h
          rw [← h]; rfl

end Codec

namespace Codec

open Wire

/-! ### Decode-fold lemmas -/

theorem set_self_of_getElem {l : List FieldValue} {i : Nat} {a : FieldValue}
    (h : l[i]? = some a) : l.set i a = l := by
  apply List.ext_getElem?
  intro n
  rcases eq_or_ne n i with rfl | hne
  · simp [List.getElem?_set_self', h]
  · simp [List.getElem?_set_ne hne.symm]


theorem eq_take_get_cons_drop (l : List FieldModel) (i : Nat) (h : i < l.length) :
    l = l.take i ++ l.get ⟨i, h⟩ :: l.drop (i + 1) := by
  have hself : l.set i (l.get ⟨i, h⟩) = l := by
    apply List.ext_getElem?
    intro n
    rcases eq_or_ne n i with rfl | hne
    · simp [List.getElem?_set_self', List.getElem?_eq_getElem h, List.get_eq_getElem]
    · simp [List.getElem?_set_ne hne.symm]
  calc l = l.set i (l.get ⟨i, h⟩) := hself.symm
    _ = l.take i ++ l.get ⟨i, h⟩ :: l.drop (i + 1) := List.set_eq_take_cons_drop _ h

theorem eq_take_get_cons_drop_fv (l : List FieldValue) (i : Nat) (h : i < l.length) :
    l = l.take i ++ l.get ⟨i, h⟩ :: l.drop (i + 1) := by
  have hself : l.set i (l.get ⟨i, h⟩) = l := by
    apply List.ext_getElem?
    intro n
    rcases eq_or_ne n i with rfl | hne
    · simp [List.getElem?_set_self', List.getElem?_eq_getElem h, List.get_eq_getElem]
    · simp [List.getElem?_set_ne hne.symm]
  calc l = l.set i (l.get ⟨i, h⟩) := hself.symm
    _ = l.take i ++ l.get ⟨i, h⟩ :: l.drop (i + 1) := List.set_eq_take_cons_drop _ h

theorem take_number_ne {fms : List FieldModel} (hnodup : (fms.map FieldModel.number).Nodup)
    {i : Nat} (hi : i < fms.length) {g : FieldModel} (hg : g ∈ fms.take i) :
    FieldModel.number g ≠ (fms.get ⟨i, hi⟩).number := by
  obtain ⟨j, hj, hget⟩ := List.getElem_of_mem hg
  have hjlt : j < i := by simp [List.length_take] at hj; omega
  have hjl : j < fms.length := by omega
  rw [List.getElem_take] at hget
  have hjm : j < (fms.map FieldModel.number).length := by simpa using hjl
  have him : i < (fms.map FieldModel.number).length := by simpa using hi
  intro heq
  have hmapj : (fms.map FieldModel.number)[j] = FieldModel.number g := by
    rw [List.getElem_map, hget]
  have hmapi : (fms.map FieldModel.number)[i] = (fms.get ⟨i, hi⟩).number := by
    rw [List.getElem_map, List.get_eq_getElem]
  have hji : j = i := by
    apply (List.Nodup.getElem_inj_iff hnodup).mp
    rw [hmapj, hmapi, heq]
  omega

theorem updateFields_split_app (pre post : List FieldModel)
    (fvsPre fvsPost : List FieldValue) (fm : FieldModel) (fv fv2 : FieldValue) (r : Rec)
    (hlen : fvsPre.length = pre.length)
    (hpre : ∀ g ∈ pre, FieldModel.number g ≠ r.number)
    (hn : fm.number = r.number)
    (hu : updateOne fm.kind fv r.payload = some fv2) :
    updateFields (pre ++ fm :: post) (fvsPre ++ fv :: fvsPost) r =
      some (some (fvsPre ++ fv2 :: fvsPost)) := by
  induction pre generalizing fvsPre with
  | nil =>
    cases fvsPre with
    | nil => simp only [List.nil_append, updateFields, if_pos hn, hu]
    | cons a b => simp at hlen
  | cons g pre ih =>
    cases fvsPre with
    | nil => simp at hlen
    | cons fvp fvsPre =>
      have hg : ¬ g.number = r.number := hpre g (by simp)
      simp only [List.cons_append, updateFields, if_neg hg, List.append_eq]
      rw [ih fvsPre (by simpa using hlen) (fun q hq => hpre q (by simp [hq]))]

theorem updateFields_at {s : MessageSchema}
    (hnodup : (s.fields.map FieldModel.number).Nodup)
    {i : Nat} (hi : i < s.fields.length)
    {cur : List FieldValue} (hilen : i < cur.length)
    {r : Rec} (hn : (s.fields.get ⟨i, hi⟩).number = r.number)
    {fv2 : FieldValue}
    (hu : updateOne (s.fields.get ⟨i, hi⟩).kind (cur.get ⟨i, hilen⟩) r.payload = some fv2) :
    updateFields s.fields cur r = some (some (cur.set i fv2)) := by
  have hf := eq_take_get_cons_drop s.fields i hi
  have hc := eq_take_get_cons_drop_fv cur i hilen
  have hkey := updateFields_split_app (s.fields.take i) (s.fields.drop (i + 1))
    (cur.take i) (cur.drop (i + 1)) (s.fields.get ⟨i, hi⟩) (cur.get ⟨i, hilen⟩) fv2 r
    (by simp [List.length_take]; omega)
    (fun g hg => by rw [← hn]; exact take_number_ne hnodup hi hg)
    hn hu
  rw [← hf, ← hc] at hkey
  rw [hkey, List.set_eq_take_cons_drop fv2 hilen]

end Codec

namespace Codec

open Wire

theorem decodeRecs_append (s : MessageSchema) (m : MessageValue)
    (l1 l2 : List (Rec × List Nat)) :
    decodeRecs s m (l1 ++ l2) =
      match decodeRecs s m l1 with
      | none => none
      | some m' => decodeRecs s m' l2 := by
  induction l1 generalizing m with
  | nil => simp [decodeRecs]
  | cons rr l1 ih =>
    simp only [List.cons_append, decodeRecs]
    cases applyRec s m rr with
    | none => rfl
    | some m' => exact ih m'

theorem decodeRecs_single_known {s : MessageSchema} {m : MessageValue}
    {rr : Rec × List Nat} {vs : List FieldValue}
    (h : updateFields s.fields m.values rr.1 = some (some vs)) :
    decodeRecs s m [rr] = some { m with values := vs } := by
  simp [decodeRecs, applyRec, h]

theorem decodeRecs_pair {s : MessageSchema}
    (hnodup : (s.fields.map FieldModel.number).Nodup)
    {i : Nat} (hi : i < s.fields.length) {fm : FieldModel}
    (hfm : s.fields.get ⟨i, hi⟩ = fm)
    {cur : List FieldValue} (hilen : i < cur.length)
    (hcur : cur.get ⟨i, hilen⟩ = initValue fm.kind)
    {fv : FieldValue} (hmatch : matchesKind fm.kind fv = true) (u : List Nat) :
    decodeRecs s ⟨cur, u⟩ (recsOfPair (fm, fv)) = some ⟨cur.set i fv, u⟩ := by
  have hset_self : cur.set i fv = cur → decodeRecs s ⟨cur, u⟩ [] = some ⟨cur.set i fv, u⟩ := by
    intro hs; rw [hs]; rfl
  have hinit_set : cur.get ⟨i, hilen⟩ = fv → cur.set i fv = cur := by
    intro hgv
    apply set_self_of_getElem
    rw [List.getElem?_eq_getElem hilen]
    exact congrArg some hgv
  cases hk : fm.kind with
  | singular pres =>
    cases pres with
    | implicit =>
      cases fv with
      | optionalVal v => rw [hk] at hmatch; simp [matchesKind] at hmatch
      | repeatedVal vs => rw [hk] at hmatch; simp [matchesKind] at hmatch
      | implicitVal v =>
        cases v with
        | zero =>
          show decodeRecs s ⟨cur, u⟩ [] = _
          exact hset_self (hinit_set (by rw [hcur, hk]; rfl))
        | succ v =>
          have hrec : recsOfPair (fm, FieldValue.implicitVal (v + 1)) =
              [(⟨fm.number, RecPayload.varintP (v + 1)⟩,
                encodeRec ⟨fm.number, RecPayload.varintP (v + 1)⟩)] := rfl
          rw [hrec]
          refine decodeRecs_single_known (updateFields_at hnodup hi hilen ?_ ?_)
          · rw [hfm]
          · rw [hfm, hk]; rfl
    | explicitOptional =>
      cases fv with
      | implicitVal v => rw [hk] at hmatch; simp [matchesKind] at hmatch
      | repeatedVal vs => rw [hk] at hmatch; simp [matchesKind] at hmatch
      | optionalVal ov =>
        cases ov with
        | none =>
          show decodeRecs s ⟨cur, u⟩ [] = _
          exact hset_self (hinit_set (by rw [hcur, hk]; rfl))
        | some v =>
          have hrec : recsOfPair (fm, FieldValue.optionalVal (some v)) =
              [(⟨fm.number, RecPayload.varintP v⟩,
                encodeRec ⟨fm.number, RecPayload.varintP v⟩)] := rfl
          rw [hrec]
          refine decodeRecs_single_known (updateFields_at hnodup hi hilen ?_ ?_)
          · rw [hfm]
          · rw [hfm, hk]; rfl
  | repeated =>
    cases fv with
    | implicitVal v => rw [hk] at hmatch; simp [matchesKind] at hmatch
    | optionalVal v => rw [hk] at hmatch; simp [matchesKind] at hmatch
    | repeatedVal vs =>
      cases vs with
      | nil =>
        show decodeRecs s ⟨cur, u⟩ [] = _
        exact hset_self (hinit_set (by rw [hcur, hk]; rfl))
      | cons w ws =>
        have hrec : recsOfPair (fm, FieldValue.repeatedVal (w :: ws)) =
            [(⟨fm.number, RecPayload.lenP (packEncode (w :: ws))⟩,
              encodeRec ⟨fm.number, RecPayload.lenP (packEncode (w :: ws))⟩)] := rfl
        rw [hrec]
        refine decodeRecs_single_known (updateFields_at hnodup hi hilen ?_ ?_)
        · rw [hfm]
        · rw [hfm, hk, hcur, hk]
          show updateOne FieldKind.repeated (initValue FieldKind.repeated)
            (RecPayload.lenP (packEncode (w :: ws))) = some (FieldValue.repeatedVal (w :: ws))
          simp [updateOne, initValue, parsePacked_packEncode]

end Codec

namespace Codec

open Wire

/-! ### Whole-message decode lemmas -/

theorem recsOfPairs_raws (ps : List (FieldModel × FieldValue)) :
    ((recsOfPairs ps).map Prod.snd).flatten =
      (ps.map (fun p => encodeField p.1 p.2)).flatten := by
  induction ps with
  | nil => rfl
  | cons p ps ih =>
    simp only [recsOfPairs, List.map_cons, List.flatten_cons, List.map_append,
      List.flatten_append] at ih ⊢
    rw [ih]
    congr 1
    simp only [recsOfPair, encodeField, List.map_map]
    rfl

theorem mem_recsOfPairs_readsAs (ps : List (FieldModel × FieldValue)) :
    ∀ p ∈ recsOfPairs ps, ReadsAs p := by
  intro p hp
  simp only [recsOfPairs, List.mem_flatten, List.mem_map] at hp
  obtain ⟨l, ⟨q, _, rfl⟩, hpl⟩ := hp
  simp only [recsOfPair, List.mem_map] at hpl
  obtain ⟨r, _, rfl⟩ := hpl
  intro rest'
  exact readRec_encodeRec r rest'

theorem decodeRecs_unknown {s : MessageSchema} :
    ∀ (urs : List (Rec × List Nat)) (st : MessageValue),
      (∀ rr ∈ urs, ∀ fm ∈ s.fields, FieldModel.number fm ≠ Rec.number (Prod.fst rr)) →
      decodeRecs s st urs =
        some { st with unknown := st.unknown ++ ((urs.map Prod.snd).flatten) } := by
  intro urs
  induction urs with
  | nil => intro st _; simp [decodeRecs]
  | cons rr urs ih =>
    intro st h
    have hnone : updateFields s.fields st.values rr.1 = some none :=
      updateFields_of_not_mem _ _ _ (fun fm hfm => h rr (by simp) fm hfm)
    simp only [decodeRecs, applyRec, hnone]
    rw [ih _ (fun q hq fm hfm => h q (by simp [hq]) fm hfm)]
    simp [List.append_assoc]

theorem decodeRecs_pairs {s : MessageSchema}
    (hnodup : (s.fields.map FieldModel.number).Nodup)
    {fvs : List FieldValue}
    (hmatch : List.Forall₂ (fun fm fv => matchesKind (FieldModel.kind fm) fv = true)
      s.fields fvs) :
    ∀ (ps : List (FieldModel × FieldValue)) (cur : List FieldValue),
      cur.length = s.fields.length →
      (∀ p ∈ ps, ∃ (j : Nat) (hj : j < s.fields.length) (hj2 : j < fvs.length),
          s.fields.get ⟨j, hj⟩ = p.1 ∧ fvs.get ⟨j, hj2⟩ = p.2) →
      (ps.map (fun p => (p.1 : FieldModel).number)).Nodup →
      (∀ (j : Nat) (hj : j < s.fields.length) (hc : j < cur.length),
          (∃ p ∈ ps, (p.1 : FieldModel).number = (s.fields.get ⟨j, hj⟩).number) →
          cur.get ⟨j, hc⟩ = initValue (s.fields.get ⟨j, hj⟩).kind) →
      (∀ (j : Nat) (hj : j < s.fields.length) (hc : j < cur.length),
          (¬ ∃ p ∈ ps, (p.1 : FieldModel).number = (s.fields.get ⟨j, hj⟩).number) →
          ∀ (hf : j < fvs.length), cur.get ⟨j, hc⟩ = fvs.get ⟨j, hf⟩) →
      ∀ u, decodeRecs s ⟨cur, u⟩ (recsOfPairs ps) = some ⟨fvs, u⟩ := by
  have hfvslen : fvs.length = s.fields.length := hmatch.length_eq.symm
  intro ps
  induction ps with
  | nil =>
    intro cur hcurlen _ _ _ hdone u
    have hcur_eq : cur = fvs := by
      apply List.ext_getElem (by omega)
      intro j hc hf
      have hj : j < s.fields.length := by omega
      have := hdone j hj hc (by simp) hf
      simpa [List.get_eq_getElem] using this
    rw [hcur_eq]
    rfl
  | cons p ps ih =>
    intro cur hcurlen hmem hnodupnums hinit hdone u
    obtain ⟨pfm, pfv⟩ := p
    obtain ⟨j, hj, hj2, hpfm0, hpfv0⟩ := hmem (pfm, pfv) (by simp)
    have hpfm : s.fields.get ⟨j, hj⟩ = pfm := hpfm0
    have hpfv : fvs.get ⟨j, hj2⟩ = pfv := hpfv0
    have hjc : j < cur.length := by omega
    have hpairdec : decodeRecs s ⟨cur, u⟩ (recsOfPair (pfm, pfv)) =
        some ⟨cur.set j pfv, u⟩ := by
      apply decodeRecs_pair hnodup hj hpfm hjc
      · rw [hinit j hj hjc ⟨(pfm, pfv), by simp, by rw [hpfm]⟩, hpfm]
      · have hmg := hmatch.get hj hj2
        rw [hpfm, hpfv] at hmg
        exact hmg
    have hrw : recsOfPairs ((pfm, pfv) :: ps) = recsOfPair (pfm, pfv) ++ recsOfPairs ps := by
      simp [recsOfPairs]
    rw [hrw, decodeRecs_append, hpairdec]
    have hsetlen : (cur.set j pfv).length = s.fields.length := by
      simpa using hcurlen
    apply ih (cur.set j pfv) hsetlen
    · intro q hq; exact hmem q (by simp [hq])
    · exact (List.nodup_cons.mp hnodupnums).2
    · intro k hk hc hex
      obtain ⟨q, hq, hqn⟩ := hex
      have hkj : k ≠ j := by
        intro hkj
        subst hkj
        have hqp : FieldModel.number (Prod.fst q) = pfm.number := by
          rw [hqn, hpfm]
        have : pfm.number ∉ ps.map (fun p => (p.1 : FieldModel).number) :=
          (List.nodup_cons.mp hnodupnums).1
        exact this (by
          rw [← hqp]
          exact List.mem_map.mpr ⟨q, hq, rfl⟩)
      have hcurk : (cur.set j pfv).get ⟨k, hc⟩ = cur.get ⟨k, by simpa using hc⟩ := by
        simp [List.get_eq_getElem, List.getElem_set_of_ne (Ne.symm hkj)]
      rw [hcurk]
      exact hinit k hk (by simpa using hc) ⟨q, by simp [hq], hqn⟩
    · intro k hk hc hnex hf
      rcases eq_or_ne k j with rfl | hkj
      · have hsv : (cur.set k pfv).get ⟨k, hc⟩ = pfv := by
          simp [List.get_eq_getElem, List.getElem_set_self]
        rw [hsv, ← hpfv]
      · have hcurk : (cur.set j pfv).get ⟨k, hc⟩ = cur.get ⟨k, by simpa using hc⟩ := by
          simp [List.get_eq_getElem, List.getElem_set_of_ne (Ne.symm hkj)]
        rw [hcurk]
        apply hdone k hk (by simpa using hc)
        intro hex
        apply hnex
        obtain ⟨q, hq, hqn⟩ := hex
        rcases List.mem_cons.mp hq with rfl | hq'
        · exfalso
          have hjm : j < (s.fields.map FieldModel.number).length := by simpa using hj
          have hkm : k < (s.fields.map FieldModel.number).length := by simpa using hk
          have hnum_eq : (s.fields.map FieldModel.number)[j] =
              (s.fields.map FieldModel.number)[k] := by
            rw [List.getElem_map, List.getElem_map]
            have : pfm.number = (s.fields.get ⟨k, hk⟩).number := hqn
            rw [← hpfm] at this
            simp only [List.get_eq_getElem] at this
            exact this
          have := (List.Nodup.getElem_inj_iff hnodup).mp hnum_eq
          omega
        · exact ⟨q, hq', hqn⟩

end Codec

namespace Codec

open Wire

theorem decode_encodeMessage {s : MessageSchema} {m : MessageValue}
    (hwf : s.wf) (hvalid : m.valid s) :
    decode s (encodeMessage s m) = some m := by
  obtain ⟨hmatch, hunk⟩ := hvalid
  have hnodup : (s.fields.map FieldModel.number).Nodup := hwf.1
  have hlen : m.values.length = s.fields.length := hmatch.length_eq.symm
  -- the unknown buffer parses into unknown-numbered records
  have hunk' := hunk
  unfold unknownWF at hunk'
  cases hu : readRecs m.unknown with
  | none => rw [hu] at hunk'; exact absurd hunk' (by simp)
  | some urs =>
    rw [hu] at hunk'
    simp only [] at hunk'
    obtain ⟨hflat_urs, hreads_urs⟩ := readRecs_elim hu
    -- the sorted field pairs
    have hperm : ((s.fields.zip m.values).mergeSort
        (fun a b => Nat.ble (FieldModel.number a.1) (FieldModel.number b.1))).Perm
        (s.fields.zip m.values) := List.mergeSort_perm _ _
    set sorted := (s.fields.zip m.values).mergeSort
      (fun a b => Nat.ble (FieldModel.number a.1) (FieldModel.number b.1)) with hsorted
    -- the encoded message parses into the field records plus the unknown records
    have hall : ∀ p ∈ recsOfPairs sorted ++ urs, ReadsAs p := by
      intro p hp
      rcases List.mem_append.mp hp with hp | hp
      · exact mem_recsOfPairs_readsAs sorted p hp
      · exact hreads_urs p hp
    have hflat : (((recsOfPairs sorted ++ urs).map Prod.snd).flatten) = encodeMessage s m := by
      rw [List.map_append, List.flatten_append, recsOfPairs_raws, hflat_urs]
      rfl
    have hread : readRecs (encodeMessage s m) = some (recsOfPairs sorted ++ urs) := by
      rw [← hflat]
      exact readRecs_flatten _ hall
    -- membership of sorted pairs in the zip, with their index
    have hmem : ∀ p ∈ sorted, ∃ (j : Nat) (hj : j < s.fields.length)
        (hj2 : j < m.values.length),
        s.fields.get ⟨j, hj⟩ = p.1 ∧ m.values.get ⟨j, hj2⟩ = p.2 := by
      intro p hp
      have hpz : p ∈ s.fields.zip m.values := hperm.mem_iff.mp hp
      obtain ⟨⟨j, hjz⟩, hget⟩ := List.get_of_mem hpz
      have hjf : j < s.fields.length := by
        simp [List.length_zip] at hjz; omega
      have hjv : j < m.values.length := by
        simp [List.length_zip] at hjz; omega
      refine ⟨j, hjf, hjv, ?_, ?_⟩
      · rw [← hget]
        simp [List.get_eq_getElem, List.getElem_zip]
      · rw [← hget]
        simp [List.get_eq_getElem, List.getElem_zip]
    -- the sorted pairs carry pairwise distinct field numbers
    have hzip_map : (s.fields.zip m.values).map (fun p => (p.1 : FieldModel).number) =
        s.fields.map FieldModel.number := by
      have h1 : (s.fields.zip m.values).map Prod.fst = s.fields :=
        List.map_fst_zip _ _ (by omega)
      calc (s.fields.zip m.values).map (fun p => (p.1 : FieldModel).number)
          = ((s.fields.zip m.values).map Prod.fst).map FieldModel.number := by
            rw [List.map_map]; rfl
        _ = s.fields.map FieldModel.number := by rw [h1]
    have hnodup_sorted : (sorted.map (fun p => (p.1 : FieldModel).number)).Nodup := by
      have : (sorted.map (fun p => (p.1 : FieldModel).number)).Perm
          ((s.fields.zip m.values).map (fun p => (p.1 : FieldModel).number)) :=
        hperm.map _
      rw [hzip_map] at this
      exact this.nodup_iff.mpr hnodup
    -- phase 1: the field records rebuild the values
    have hphase1 : decodeRecs s (initMessage s) (recsOfPairs sorted) =
        some ⟨m.values, []⟩ := by
      have hinitlen : (s.fields.map (fun fm => initValue (FieldModel.kind fm))).length =
          s.fields.length := by simp
      apply decodeRecs_pairs hnodup hmatch sorted _ hinitlen hmem hnodup_sorted
      · intro j hj hc _
        simp [List.get_eq_getElem, List.getElem_map]
      · intro j hj hc hnex
        exfalso
        apply hnex
        have hjz : j < (s.fields.zip m.values).length := by
          simp [List.length_zip]; omega
        refine ⟨(s.fields.zip m.values).get ⟨j, hjz⟩, ?_, ?_⟩
        · exact hperm.mem_iff.mpr (List.get_mem _ _ _)
        · simp [List.get_eq_getElem, List.getElem_zip]
    -- phase 2: the unknown records accumulate verbatim
    have hphase2 : decodeRecs s ⟨m.values, []⟩ urs = some ⟨m.values, m.unknown⟩ := by
      have := decodeRecs_unknown urs ⟨m.values, []⟩
        (fun rr hrr fm hfm => hunk' rr hrr fm hfm)
      rw [this]
      simp [hflat_urs]
    -- assemble
    unfold decode
    rw [hread]
    simp only []
    rw [decodeRecs_append, hphase1]
    simp only []
    rw [hphase2]

end Codec

namespace Codec

open Wire

/-! ### Decode success, last-occurrence, and accumulation lemmas -/

theorem forall2_set {R : FieldModel → FieldValue → Prop}
    {fms : List FieldModel} {fvs : List FieldValue} (h : List.Forall₂ R fms fvs)
    {i : Nat} {fm : FieldModel} (hfm : fms[i]? = some fm)
    {b : FieldValue} (hb : R fm b) : List.Forall₂ R fms (fvs.set i b) := by
  rw [List.forall₂_iff_get] at h ⊢
  obtain ⟨hl, hp⟩ := h
  refine ⟨by simpa using hl, ?_⟩
  intro k h₁ h₂
  have h₂' : k < fvs.length := by simpa using h₂
  rcases eq_or_ne k i with rfl | hne
  · have hfmk : fms.get ⟨k, h₁⟩ = fm := by
      have := List.getElem?_eq_getElem h₁
      rw [this] at hfm
      simpa [List.get_eq_getElem] using hfm
    rw [hfmk]
    have : (fvs.set k b).get ⟨k, h₂⟩ = b := by
      simp [List.get_eq_getElem, List.getElem_set_self]
    rw [this]
    exact hb
  · have : (fvs.set i b).get ⟨k, h₂⟩ = fvs.get ⟨k, h₂'⟩ := by
      simp [List.get_eq_getElem, List.getElem_set_of_ne (Ne.symm hne)]
    rw [this]
    exact hp k h₁ h₂'

theorem updateOne_isSome {fm : FieldModel} {fv : FieldValue} {r : Rec}
    (hmatch : matchesKind fm.kind fv = true) :
    (updateOne fm.kind fv r.payload).isSome =
      (match fm.kind, r.payload with
       | FieldKind.singular _, RecPayload.varintP _ => true
       | FieldKind.repeated, RecPayload.lenP bs => (parsePacked bs).isSome
       | _, _ => false) := by
  cases hk : fm.kind with
  | singular pres =>
    cases r.payload with
    | varintP v => cases pres <;> rfl
    | lenP bs => cases pres <;> rfl
  | repeated =>
    cases r.payload with
    | varintP v => rfl
    | lenP bs =>
      rw [hk] at hmatch
      cases fv with
      | implicitVal v => simp [matchesKind] at hmatch
      | optionalVal v => simp [matchesKind] at hmatch
      | repeatedVal vs =>
        simp only [updateOne]
        cases parsePacked bs <;> rfl

theorem updateFields_isSome :
    ∀ (fms : List FieldModel) (fvs : List FieldValue) (r : Rec),
      List.Forall₂ (fun fm fv => matchesKind (FieldModel.kind fm) fv = true) fms fvs →
      (updateFields fms fvs r).isSome = recordOKFields fms r := by
  intro fms fvs r h
  induction h with
  | nil => rfl
  | @cons fm fv fms fvs hm hrest ih =>
    by_cases hn : fm.number = r.number
    · simp only [updateFields, if_pos hn, recordOKFields]
      rw [← updateOne_isSome hm]
      cases updateOne fm.kind fv r.payload <;> simp
    · simp only [updateFields, if_neg hn, recordOKFields]
      rw [← ih]
      cases updateFields fms fvs r with
      | none => rfl
      | some o => cases o <;> rfl

theorem updateFields_shape {fms : List FieldModel} {fvs fvs' : List FieldValue} {r : Rec}
    (h : updateFields fms fvs r = some (some fvs'))
    (hmatch : List.Forall₂ (fun fm fv => matchesKind (FieldModel.kind fm) fv = true) fms fvs) :
    List.Forall₂ (fun fm fv => matchesKind (FieldModel.kind fm) fv = true) fms fvs' := by
  obtain ⟨i, fm, fv, fv2, h1, h2, h3, h4, h5, h6⟩ := updateFields_char fms fvs r fvs' h
  rw [h5]
  exact forall2_set hmatch h1 (updateOne_matches h4)

theorem decodeRecs_isSome :
    ∀ (s : MessageSchema) (rs : List (Rec × List Nat)) (st : MessageValue),
      List.Forall₂ (fun fm fv => matchesKind (FieldModel.kind fm) fv = true)
        s.fields st.values →
      (decodeRecs s st rs).isSome = rs.all (fun rr => recordOKFields s.fields rr.1) := by
  intro s rs
  induction rs with
  | nil => intro st _; rfl
  | cons rr rs ih =>
    intro st hshape
    simp only [decodeRecs, applyRec, List.all_cons]
    cases hup : updateFields s.fields st.values rr.1 with
    | none =>
      have hok : recordOKFields s.fields rr.1 = false := by
        rw [← updateFields_isSome s.fields st.values rr.1 hshape, hup]
        rfl
      simp [hok]
    | some o =>
      have hok : recordOKFields s.fields rr.1 = true := by
        rw [← updateFields_isSome s.fields st.values rr.1 hshape, hup]
        rfl
      rw [hok]
      cases o with
      | none =>
        simp only []
        rw [ih { st with unknown := st.unknown ++ rr.2 } hshape]
        simp
      | some vs =>
        simp only []
        rw [ih { st with values := vs } (updateFields_shape hup hshape)]
        simp

theorem initMessage_shape (s : MessageSchema) :
    List.Forall₂ (fun fm fv => matchesKind (FieldModel.kind fm) fv = true)
      s.fields (initMessage s).values := by
  show List.Forall₂ _ s.fields (s.fields.map (fun fm => initValue (FieldModel.kind fm)))
  induction s.fields with
  | nil => exact List.Forall₂.nil
  | cons fm fms ih =>
    refine List.Forall₂.cons ?_ ih
    cases hk : fm.kind with
    | singular pres => cases pres <;> simp [initValue, matchesKind, hk]
    | repeated => simp [initValue, matchesKind, hk]

end Codec

namespace Codec

open Wire

theorem getElem?_number_inj {fms : List FieldModel}
    (hnodup : (fms.map FieldModel.number).Nodup)
    {i j : Nat} {fmi fmj : FieldModel} (hi : fms[i]? = some fmi) (hj : fms[j]? = some fmj)
    (hn : fmi.number = fmj.number) : i = j := by
  obtain ⟨hil, hie⟩ := List.getElem?_eq_some.mp hi
  obtain ⟨hjl, hje⟩ := List.getElem?_eq_some.mp hj
  have him : i < (fms.map FieldModel.number).length := by simpa using hil
  have hjm : j < (fms.map FieldModel.number).length := by simpa using hjl
  have key : (fms.map FieldModel.number)[i] = (fms.map FieldModel.number)[j] := by
    rw [List.getElem_map, List.getElem_map, hie, hje, hn]
  exact (List.Nodup.getElem_inj_iff hnodup).mp key

theorem decodeRecs_values_length {s : MessageSchema} :
    ∀ (rs : List (Rec × List Nat)) (st m' : MessageValue),
      decodeRecs s st rs = some m' → m'.values.length = st.values.length := by
  intro rs
  induction rs with
  | nil =>
    intro st m' h
    simp only [decodeRecs, Option.some.injEq] at h
    rw [← h]
  | cons rr rs ih =>
    intro st m' h
    simp only [decodeRecs, applyRec] at h
    cases hup : updateFields s.fields st.values rr.1 with
    | none => rw [hup] at h; simp at h
    | some o =>
      rw [hup] at h
      cases o with
      | none => simpa using ih _ m' h
      | some vs =>
        simp only [] at h
        obtain ⟨i₀, fm₀, fv₀, fv2, _, _, _, _, h5, _⟩ := updateFields_char _ _ _ _ hup
        have := ih _ m' h
        simpa [h5] using this

theorem decodeRecs_singular_last {s : MessageSchema}
    (hnodup : (s.fields.map FieldModel.number).Nodup) :
    ∀ (rs : List (Rec × List Nat)) (st m' : MessageValue),
      decodeRecs s st rs = some m' →
      st.values.length = s.fields.length →
      ∀ (i : Nat) (fm : FieldModel), s.fields[i]? = some fm →
      ∀ (pres : BuildRs.Presence), fm.kind = FieldKind.singular pres →
      ∀ (cv : FieldValue), st.values[i]? = some cv →
      m'.values[i]? = some
        (match (singularOccs fm.number ((rs.map Prod.fst))).getLast? with
         | none => cv
         | some v => mkSingular pres v) := by
  intro rs
  induction rs with
  | nil =>
    intro st m' h _ i fm _ pres _ cv hcv
    simp only [decodeRecs, Option.some.injEq] at h
    subst h
    simpa [singularOccs] using hcv
  | cons rr rs ih =>
    intro st m' h hstlen i fm hfm pres hkind cv hcv
    simp only [decodeRecs, applyRec] at h
    cases hup : updateFields s.fields st.values rr.1 with
    | none => rw [hup] at h; simp at h
    | some o =>
      rw [hup] at h
      cases o with
      | none =>
        simp only [] at h
        have hnums := updateFields_some_none s.fields st.values rr.1 hstlen hup
        have hne : fm.number ≠ rr.1.number := hnums fm (List.getElem?_mem hfm)
        have hocc : singularOccs fm.number ((rr :: rs).map Prod.fst) =
            singularOccs fm.number (rs.map Prod.fst) := by
          cases hp : rr.1.payload with
          | varintP v =>
            simp [singularOccs, List.filterMap_cons, hp, Ne.symm hne]
          | lenP bs =>
            simp [singularOccs, List.filterMap_cons, hp]
        rw [hocc]
        exact ih _ m' h (by simpa using hstlen) i fm hfm pres hkind cv (by simpa using hcv)
      | some vs =>
        simp only [] at h
        obtain ⟨i₀, fm₀, fv₀, fv2, h1, h2, h3, h4, h5, h6⟩ := updateFields_char _ _ _ _ hup
        have hstlen' : vs.length = s.fields.length := by
          rw [h5]; simpa using hstlen
        by_cases hrn : rr.1.number = fm.number
        · have hii : i₀ = i := getElem?_number_inj hnodup h1 hfm (by rw [h3, hrn])
          subst hii
          have hfm0 : fm₀ = fm := by
            rw [hfm] at h1
            exact (Option.some.inj h1).symm
          subst hfm0
          cases hp : rr.1.payload with
          | lenP bs =>
            rw [hkind, hp] at h4
            cases pres <;> simp [updateOne] at h4
          | varintP v =>
            rw [hkind, hp] at h4
            have hfv2 : fv2 = mkSingular pres v := by
              cases pres <;>
                (simp only [updateOne, Option.some.injEq] at h4; rw [← h4]; rfl)
            have hocc : singularOccs fm₀.number ((rr :: rs).map Prod.fst) =
                v :: singularOccs fm₀.number (rs.map Prod.fst) := by
              simp [singularOccs, List.filterMap_cons, hp, hrn]
            rw [hocc]
            have hilt : i₀ < st.values.length := (List.getElem?_eq_some.mp hcv).1
            have hvs : vs[i₀]? = some fv2 := by
              rw [h5]
              simp [List.getElem?_set_self', hilt]
            have hres := ih _ m' h hstlen' i₀ fm₀ hfm pres hkind fv2 hvs
            rw [hres, hfv2]
            cases hlast : (singularOccs fm₀.number (rs.map Prod.fst)) with
            | nil => simp
            | cons w ws =>
              have hl2 : (v :: w :: ws).getLast? = (w :: ws).getLast? := rfl
              rw [hl2]
              cases hl3 : (w :: ws).getLast? with
              | none => simp at hl3
              | some u => simp
        · have hocc : singularOccs fm.number ((rr :: rs).map Prod.fst) =
              singularOccs fm.number (rs.map Prod.fst) := by
            cases hp : rr.1.payload with
            | varintP v => simp [singularOccs, List.filterMap_cons, hp, hrn]
            | lenP bs => simp [singularOccs, List.filterMap_cons, hp]
          rw [hocc]
          have hne : i₀ ≠ i := by
            intro he
            subst he
            rw [hfm] at h1
            have : fm₀ = fm := (Option.some.inj h1).symm
            subst this
            exact hrn h3.symm
          have hvs : vs[i]? = some cv := by
            rw [h5, List.getElem?_set_ne hne]
            exact hcv
          exact ih _ m' h hstlen' i fm hfm pres hkind cv hvs

end Codec

namespace Codec

open Wire

theorem decodeRecs_repeated_acc {s : MessageSchema}
    (hnodup : (s.fields.map FieldModel.number).Nodup) :
    ∀ (rs : List (Rec × List Nat)) (st m' : MessageValue),
      decodeRecs s st rs = some m' →
      st.values.length = s.fields.length →
      ∀ (i : Nat) (fm : FieldModel), s.fields[i]? = some fm →
      fm.kind = FieldKind.repeated →
      ∀ (vs0 : List Nat), st.values[i]? = some (FieldValue.repeatedVal vs0) →
      m'.values[i]? = some (FieldValue.repeatedVal
        (vs0 ++ (packedOccs fm.number (rs.map Prod.fst)).flatten)) := by
  intro rs
  induction rs with
  | nil =>
    intro st m' h _ i fm _ _ vs0 hcv
    simp only [decodeRecs, Option.some.injEq] at h
    subst h
    simpa [packedOccs] using hcv
  | cons rr rs ih =>
    intro st m' h hstlen i fm hfm hkind vs0 hcv
    simp only [decodeRecs, applyRec] at h
    cases hup : updateFields s.fields st.values rr.1 with
    | none => rw [hup] at h; simp at h
    | some o =>
      rw [hup] at h
      cases o with
      | none =>
        simp only [] at h
        have hnums := updateFields_some_none s.fields st.values rr.1 hstlen hup
        have hne : fm.number ≠ rr.1.number := hnums fm (List.getElem?_mem hfm)
        have hocc : packedOccs fm.number ((rr :: rs).map Prod.fst) =
            packedOccs fm.number (rs.map Prod.fst) := by
          cases hp : rr.1.payload with
          | varintP v => simp [packedOccs, List.filterMap_cons, hp]
          | lenP bs => simp [packedOccs, List.filterMap_cons, hp, Ne.symm hne]
        rw [hocc]
        exact ih _ m' h (by simpa using hstlen) i fm hfm hkind vs0 (by simpa using hcv)
      | some vs =>
        simp only [] at h
        obtain ⟨i₀, fm₀, fv₀, fv2, h1, h2, h3, h4, h5, h6⟩ := updateFields_char _ _ _ _ hup
        have hstlen' : vs.length = s.fields.length := by
          rw [h5]; simpa using hstlen
        by_cases hrn : rr.1.number = fm.number
        · have hii : i₀ = i := getElem?_number_inj hnodup h1 hfm (by rw [h3, hrn])
          subst hii
          have hfm0 : fm₀ = fm := by
            rw [hfm] at h1
            exact (Option.some.inj h1).symm
          subst hfm0
          have hfv0 : fv₀ = FieldValue.repeatedVal vs0 := by
            rw [hcv] at h2
            exact (Option.some.inj h2).symm
          cases hp : rr.1.payload with
          | varintP v =>
            rw [hkind, hp] at h4
            simp [updateOne] at h4
          | lenP bs =>
            rw [hkind, hp, hfv0] at h4
            simp only [updateOne] at h4
            cases hpp : parsePacked bs with
            | none => rw [hpp] at h4; simp at h4
            | some ws =>
              rw [hpp] at h4
              simp only [Option.some.injEq] at h4
              have hocc : packedOccs fm₀.number ((rr :: rs).map Prod.fst) =
                  ws :: packedOccs fm₀.number (rs.map Prod.fst) := by
                simp [packedOccs, List.filterMap_cons, hp, hrn, hpp]
              rw [hocc]
              have hilt : i₀ < st.values.length := (List.getElem?_eq_some.mp hcv).1
              have hvs : vs[i₀]? = some (FieldValue.repeatedVal (vs0 ++ ws)) := by
                rw [h5, ← h4]
                simp [List.getElem?_set_self', hilt]
              have hres := ih _ m' h hstlen' i₀ fm₀ hfm hkind (vs0 ++ ws) hvs
              rw [hres]
              simp [List.append_assoc]
        · have hocc : packedOccs fm.number ((rr :: rs).map Prod.fst) =
              packedOccs fm.number (rs.map Prod.fst) := by
            cases hp : rr.1.payload with
            | varintP v => simp [packedOccs, List.filterMap_cons, hp]
            | lenP bs => simp [packedOccs, List.filterMap_cons, hp, hrn]
          rw [hocc]
          have hne : i₀ ≠ i := by
            intro he
            subst he
            rw [hfm] at h1
            have hfmeq : fm₀ = fm := (Option.some.inj h1).symm
            subst hfmeq
            exact hrn h3.symm
          have hvs : vs[i]? = some (FieldValue.repeatedVal vs0) := by
            rw [h5, List.getElem?_set_ne hne]
            exact hcv
          exact ih _ m' h hstlen' i fm hfm hkind vs0 hvs

end Codec

namespace Compile

/-! ### Determinism / order-independence lemmas -/

theorem declLE_trans (a b c : Decl) :
    declLE a b = true → declLE b c = true → declLE a c = true := by
  intro h1 h2
  unfold declLE at h1 h2 ⊢
  by_cases hab : a.fqName = b.fqName
  · rw [if_pos hab] at h1
    by_cases hbc : b.fqName = c.fqName
    · rw [if_pos hbc] at h2
      rw [if_pos (hab.trans hbc)]
      simp only [decide_eq_true_eq] at h1 h2 ⊢
      exact le_trans h1 h2
    · rw [if_neg hbc] at h2
      have hac : ¬ a.fqName = c.fqName := by rw [hab]; exact hbc
      rw [if_neg hac]
      simp only [decide_eq_true_eq] at h2 ⊢
      rw [hab]
      exact h2
  · rw [if_neg hab] at h1
    by_cases hbc : b.fqName = c.fqName
    · rw [if_pos hbc] at h2
      have hac : ¬ a.fqName = c.fqName := by rw [← hbc]; exact hab
      rw [if_neg hac]
      simp only [decide_eq_true_eq] at h1 ⊢
      rw [← hbc]
      exact h1
    · rw [if_neg hbc] at h2
      simp only [decide_eq_true_eq] at h1 h2
      have hlt : a.fqName < c.fqName := lt_trans h1 h2
      rw [if_neg (fun he => absurd (he ▸ hlt) (lt_irrefl _))]
      simp only [decide_eq_true_eq]
      exact hlt

theorem declLE_total (a b : Decl) : (declLE a b || declLE b a) = true := by
  unfold declLE
  by_cases hab : a.fqName = b.fqName
  · simp only [if_pos hab, if_pos hab.symm, Bool.or_eq_true, decide_eq_true_eq]
    exact le_total a.body b.body
  · have hba : ¬ b.fqName = a.fqName := fun h => hab h.symm
    simp only [if_neg hab, if_neg hba, Bool.or_eq_true, decide_eq_true_eq]
    rcases lt_or_gt_of_ne (show a.fqName ≠ b.fqName from hab) with h | h
    · exact Or.inl h
    · exact Or.inr h

theorem declLE_antisymm (a b : Decl) :
    declLE a b = true → declLE b a = true → a = b := by
  unfold declLE
  by_cases hab : a.fqName = b.fqName
  · have hba : b.fqName = a.fqName := hab.symm
    simp only [if_pos hab, if_pos hba, decide_eq_true_eq]
    intro h1 h2
    obtain ⟨na, ba⟩ := a
    obtain ⟨nb, bb⟩ := b
    simp only at hab h1 h2
    subst hab
    rw [le_antisymm h1 h2]
  · have hba : ¬ b.fqName = a.fqName := fun h => hab h.symm
    simp only [if_neg hab, if_neg hba, decide_eq_true_eq]
    intro h1 h2
    exact absurd (lt_trans h1 h2) (lt_irrefl _)

theorem mergeSort_declLE_eq {l1 l2 : List Decl} (h : l1.Perm l2) :
    l1.mergeSort declLE = l2.mergeSort declLE := by
  haveI : IsAntisymm Decl (fun a b => declLE a b = true) :=
    ⟨fun a b h1 h2 => declLE_antisymm a b h1 h2⟩
  exact List.eq_of_perm_of_sorted
    (((List.mergeSort_perm l1 declLE).trans h).trans (List.mergeSort_perm l2 declLE).symm)
    (List.sorted_mergeSort declLE_trans declLE_total l1)
    (List.sorted_mergeSort declLE_trans declLE_total l2)

theorem compileDecls_perm {l1 l2 : List Decl} (h : l1.Perm l2) :
    compileDecls l1 = compileDecls l2 := by
  unfold compileDecls
  have hnodup : (l1.map Decl.fqName).Nodup ↔ (l2.map Decl.fqName).Nodup :=
    (h.map Decl.fqName).nodup_iff
  by_cases h1 : (l1.map Decl.fqName).Nodup
  · rw [if_pos h1, if_pos (hnodup.mp h1), mergeSort_declLE_eq h]
  · rw [if_neg h1, if_neg (fun h2 => h1 (hnodup.mpr h2))]

end Compile

namespace Codec

open Wire

theorem decodeRecs_unknown_eq {s : MessageSchema} :
    ∀ (rs : List (Rec × List Nat)) (st m' : MessageValue),
      decodeRecs s st rs = some m' →
      st.values.length = s.fields.length →
      m'.unknown = st.unknown ++
        ((rs.filter (fun rr =>
          decide (∀ fm ∈ s.fields, FieldModel.number fm ≠ Rec.number (Prod.fst rr)))).map
            Prod.snd).flatten := by
  intro rs
  induction rs with
  | nil =>
    intro st m' h _
    simp only [decodeRecs, Option.some.injEq] at h
    subst h
    simp
  | cons rr rs ih =>
    intro st m' h hstlen
    simp only [decodeRecs, applyRec] at h
    cases hup : updateFields s.fields st.values rr.1 with
    | none => rw [hup] at h; simp at h
    | some o =>
      rw [hup] at h
      cases o with
      | none =>
        simp only [] at h
        have hnums := updateFields_some_none s.fields st.values rr.1 hstlen hup
        have hcond : decide (∀ fm ∈ s.fields,
            FieldModel.number fm ≠ Rec.number (Prod.fst rr)) = true := by
          simp only [decide_eq_true_eq]
          exact hnums
        rw [List.filter_cons, hcond]
        simp only [List.map_cons, List.flatten_cons]
        rw [ih _ m' h (by simpa using hstlen)]
        simp [List.append_assoc]
      | some vs =>
        simp only [] at h
        obtain ⟨i₀, fm₀, fv₀, fv2, h1, h2, h3, h4, h5, h6⟩ := updateFields_char _ _ _ _ hup
        have hcond : decide (∀ fm ∈ s.fields,
            FieldModel.number fm ≠ Rec.number (Prod.fst rr)) = false := by
          simp only [decide_eq_false_iff_not]
          intro hall
          exact hall fm₀ (List.getElem?_mem h1) h3
        rw [List.filter_cons, hcond]
        simp only [Bool.false_eq_true, if_false]
        exact ih { values := vs, unknown := st.unknown } m' h
          (by simp only []; rw [h5]; simpa using hstlen)

end Codec

/-! ## Claim theorems -/

/-- C1: when `build_server` is true the compiler invocation emits server-side
dispatch scaffolding in addition to client bindings (client-only when false);
this repository's single invocation sets `build_server` to true, so its schema
yields both the client surface and the server-side contract. -/
theorem claim_build_server_scaffolding :
    (∀ b : Bool, BuildRs.Surface.serverDispatch ∈ BuildRs.emittedSurfaces b ↔ b = true) ∧
    (∀ b : Bool, BuildRs.Surface.clientBindings ∈ BuildRs.emittedSurfaces b) ∧
    BuildRs.mainBuilder.build_server = true ∧
    BuildRs.emittedSurfaces BuildRs.mainBuilder.build_server =
      [BuildRs.Surface.clientBindings, BuildRs.Surface.serverDispatch] := by
  refine ⟨fun b => ?_, fun b => ?_, rfl, rfl⟩ <;> cases b <;> simp [BuildRs.emittedSurfaces]

/-- C2: with `allow_explicit_optional_presence` true the parser accepts the
optional-presence modifier on non-message, non-repeated fields; with it false
the modifier is rejected as a syntax error; this repository's invocation
enables the extension by passing `--experimental_allow_proto3_optional`. -/
theorem claim_optional_extension :
    ("--experimental_allow_proto3_optional" ∈ BuildRs.mainBuilder.protoc_args) ∧
    (∀ f : BuildRs.FieldSrc, f.hasOptionalModifier = true →
      f.typeKind ≠ BuildRs.TypeKind.message → f.isRepeated = false →
      BuildRs.parseFieldPresence true f = Except.ok BuildRs.Presence.explicitOptional) ∧
    (∀ f : BuildRs.FieldSrc, f.hasOptionalModifier = true →
      BuildRs.parseFieldPresence false f =
        Except.error BuildRs.ParseErr.optionalNotEnabled) := by
  refine ⟨by simp [BuildRs.mainBuilder, BuildRs.configure, BuildRs.Builder.protoc_arg,
    BuildRs.Builder.set_build_server], fun f h1 h2 h3 => ?_, fun f h1 => ?_⟩
  · unfold BuildRs.parseFieldPresence
    rw [if_pos h1, if_neg (by simp), if_neg h2, h3]
    rfl
  · unfold BuildRs.parseFieldPresence
    rw [if_pos h1, if_pos rfl]

/-- Witness for C2 at a concrete scalar field carrying the optional modifier. -/
theorem claim_optional_extension_witness :
    BuildRs.parseFieldPresence true ⟨BuildRs.TypeKind.scalar, false, true⟩ =
      Except.ok BuildRs.Presence.explicitOptional ∧
    BuildRs.parseFieldPresence false ⟨BuildRs.TypeKind.scalar, false, true⟩ =
      Except.error BuildRs.ParseErr.optionalNotEnabled :=
  ⟨claim_optional_extension.2.1 ⟨BuildRs.TypeKind.scalar, false, true⟩ rfl
      (by decide) rfl,
   claim_optional_extension.2.2 ⟨BuildRs.TypeKind.scalar, false, true⟩ rfl⟩

/-- C3: the build entry point returns an error exactly when the compile call
fails (hard build failure, never a warning) and success exactly when it
succeeds. -/
theorem claim_build_failure_propagation :
    ∀ compile : BuildRs.Builder → List String → List String →
        Except BuildRs.CompileErr Unit,
      (∀ e, BuildRs.mainFn compile = Except.error e ↔
        compile BuildRs.mainBuilder ["proto/services.proto"] ["proto"] =
          Except.error e) ∧
      (BuildRs.mainFn compile = Except.ok () ↔
        compile BuildRs.mainBuilder ["proto/services.proto"] ["proto"] =
          Except.ok ()) := by
  intro compile
  cases h : compile BuildRs.mainBuilder ["proto/services.proto"] ["proto"] with
  | error e => simp [BuildRs.mainFn, h]
  | ok u => cases u; simp [BuildRs.mainFn, h]

/-- C10: `main` is a single fixed invocation — it equals the one compile call
on the fixed builder, entry file `proto/services.proto` and import directory
`proto`, with all configuration fixed beforehand. -/
theorem claim_main_single_invocation :
    (∀ compile : BuildRs.Builder → List String → List String →
        Except BuildRs.CompileErr Unit,
      BuildRs.mainFn compile =
        compile BuildRs.mainBuilder ["proto/services.proto"] ["proto"]) ∧
    BuildRs.mainBuilder =
      { build_server := true,
        protoc_args := ["--experimental_allow_proto3_optional"] } := by
  constructor
  · intro compile
    cases h : compile BuildRs.mainBuilder ["proto/services.proto"] ["proto"] with
    | error e => simp [BuildRs.mainFn, h]
    | ok u => cases u; simp [BuildRs.mainFn, h]
  · rfl

/-- C4: round-trip correctness of the generated codecs — for every well-formed
message schema and every valid message value, decoding the bytes produced by
encoding the value yields the value back. -/
theorem claim_roundtrip (s : Codec.MessageSchema) (m : Codec.MessageValue)
    (hwf : s.wf) (hm : m.valid s) :
    Codec.decode s (Codec.encodeMessage s m) = some m :=
  Codec.decode_encodeMessage hwf hm

unseal Wire.varintEncode List.merge List.mergeSort in
/-- Witness for C4: a three-field message (implicit scalar, explicit-optional
scalar present with the default value, packed repeated) plus a preserved
unknown field round-trips. -/
theorem claim_roundtrip_witness :
    (Codec.MessageSchema.wf
        ⟨[⟨1, Codec.FieldKind.singular BuildRs.Presence.implicit⟩,
          ⟨3, Codec.FieldKind.singular BuildRs.Presence.explicitOptional⟩,
          ⟨2, Codec.FieldKind.repeated⟩]⟩ ∧
      Codec.MessageValue.valid
        ⟨[⟨1, Codec.FieldKind.singular BuildRs.Presence.implicit⟩,
          ⟨3, Codec.FieldKind.singular BuildRs.Presence.explicitOptional⟩,
          ⟨2, Codec.FieldKind.repeated⟩]⟩
        ⟨[Codec.FieldValue.implicitVal 5, Codec.FieldValue.optionalVal (some 0),
          Codec.FieldValue.repeatedVal [300, 1]], [72, 7]⟩) ∧
    Codec.decode
      ⟨[⟨1, Codec.FieldKind.singular BuildRs.Presence.implicit⟩,
        ⟨3, Codec.FieldKind.singular BuildRs.Presence.explicitOptional⟩,
        ⟨2, Codec.FieldKind.repeated⟩]⟩
      (Codec.encodeMessage
        ⟨[⟨1, Codec.FieldKind.singular BuildRs.Presence.implicit⟩,
          ⟨3, Codec.FieldKind.singular BuildRs.Presence.explicitOptional⟩,
          ⟨2, Codec.FieldKind.repeated⟩]⟩
        ⟨[Codec.FieldValue.implicitVal 5, Codec.FieldValue.optionalVal (some 0),
          Codec.FieldValue.repeatedVal [300, 1]], [72, 7]⟩) =
      some ⟨[Codec.FieldValue.implicitVal 5, Codec.FieldValue.optionalVal (some 0),
        Codec.FieldValue.repeatedVal [300, 1]], [72, 7]⟩ :=
  ⟨⟨by decide, by decide⟩,
   claim_roundtrip _ _ (by decide) (by decide)⟩

/-- C5: compilation is deterministic — the same declaration set with the same
configuration yields byte-identical output, and declaration order across files
never changes the generated output. -/
theorem claim_compile_deterministic :
    (∀ decls : List Compile.Decl,
      Compile.compileDecls decls = Compile.compileDecls decls) ∧
    (∀ l1 l2 : List Compile.Decl, l1.Perm l2 →
      Compile.compileDecls l1 = Compile.compileDecls l2) :=
  ⟨fun _ => rfl, fun _ _ h => Compile.compileDecls_perm h⟩

unseal List.merge List.mergeSort in
/-- Witness for C5: two declarations listed in either order compile to the
same output. -/
theorem claim_compile_deterministic_witness :
    (([⟨"pkg.A", "msgA"⟩, ⟨"pkg.B", "msgB"⟩] : List Compile.Decl).Perm
      [⟨"pkg.B", "msgB"⟩, ⟨"pkg.A", "msgA"⟩]) ∧
    Compile.compileDecls [⟨"pkg.A", "msgA"⟩, ⟨"pkg.B", "msgB"⟩] =
      Compile.compileDecls [⟨"pkg.B", "msgB"⟩, ⟨"pkg.A", "msgA"⟩] :=
  ⟨by decide, claim_compile_deterministic.2 _ _ (by decide)⟩

/-- C6: a duplicate wire number within one message makes compilation fail with
a `SchemaErr` and write zero output files; more generally every failed
invocation writes nothing (output is all-or-nothing). -/
theorem claim_duplicate_wire_number_aborts :
    (∀ msgs : List Compile.NamedMessage,
      (∃ nm ∈ msgs, ¬ ((nm.schema.fields.map Codec.FieldModel.number).Nodup)) →
      (∃ e, Compile.compileSchemas msgs = Except.error e) ∧
        Compile.writtenFiles (Compile.compileSchemas msgs) = []) ∧
    (∀ (msgs : List Compile.NamedMessage) (e : Compile.SchemaErr),
      Compile.compileSchemas msgs = Except.error e →
      Compile.writtenFiles (Compile.compileSchemas msgs) = []) := by
  constructor
  · rintro msgs ⟨nm, hmem, hdup⟩
    have hval : Compile.validateMessage nm =
        some (Compile.SchemaErr.duplicateWireNumber nm.name) := by
      unfold Compile.validateMessage
      rw [if_pos hdup]
    cases hfind : msgs.findSome? Compile.validateMessage with
    | none =>
      exfalso
      have hall := List.findSome?_eq_none_iff.mp hfind nm hmem
      rw [hval] at hall
      exact Option.noConfusion hall
    | some e =>
      constructor
      · exact ⟨e, by unfold Compile.compileSchemas; rw [hfind]⟩
      · unfold Compile.writtenFiles Compile.compileSchemas
        rw [hfind]
  · intro msgs e h
    unfold Compile.writtenFiles
    rw [h]

/-- Witness for C6: one message declaring wire number 1 twice aborts with an
error and zero written files. -/
theorem claim_duplicate_wire_number_aborts_witness :
    (∃ nm ∈ ([⟨"M", ⟨[⟨1, Codec.FieldKind.singular BuildRs.Presence.implicit⟩,
        ⟨1, Codec.FieldKind.repeated⟩]⟩⟩] : List Compile.NamedMessage),
      ¬ ((Compile.NamedMessage.schema nm).fields.map Codec.FieldModel.number).Nodup) ∧
    ((∃ e, Compile.compileSchemas
        [⟨"M", ⟨[⟨1, Codec.FieldKind.singular BuildRs.Presence.implicit⟩,
          ⟨1, Codec.FieldKind.repeated⟩]⟩⟩] = Except.error e) ∧
      Compile.writtenFiles (Compile.compileSchemas
        [⟨"M", ⟨[⟨1, Codec.FieldKind.singular BuildRs.Presence.implicit⟩,
          ⟨1, Codec.FieldKind.repeated⟩]⟩⟩]) = []) :=
  ⟨by decide,
   claim_duplicate_wire_number_aborts.1 _ (by decide)⟩

/-- C7: the generated decoder accepts the records of a successfully decoded
byte sequence in any order (any permutation of its records still decodes),
lets the last occurrence win for a singular field, and accumulates the
occurrences of a repeated field in order of appearance. -/
theorem claim_decode_unordered (s : Codec.MessageSchema) (hwf : s.wf)
    (bytes : List Nat) (m : Codec.MessageValue) (rs : List (Wire.Rec × List Nat))
    (hdec : Codec.decode s bytes = some m)
    (hrs : Wire.readRecs bytes = some rs) :
    (∀ rs' : List (Wire.Rec × List Nat), rs'.Perm rs →
      ∃ m', Codec.decode s ((rs'.map Prod.snd).flatten) = some m') ∧
    (∀ (i : Nat) (fm : Codec.FieldModel), s.fields[i]? = some fm →
      ∀ pres, Codec.FieldModel.kind fm = Codec.FieldKind.singular pres →
      m.values[i]? = some
        (match (Codec.singularOccs fm.number (rs.map Prod.fst)).getLast? with
         | none => Codec.initValue (Codec.FieldModel.kind fm)
         | some v => Codec.mkSingular pres v)) ∧
    (∀ (i : Nat) (fm : Codec.FieldModel), s.fields[i]? = some fm →
      Codec.FieldModel.kind fm = Codec.FieldKind.repeated →
      m.values[i]? = some (Codec.FieldValue.repeatedVal
        ((Codec.packedOccs fm.number (rs.map Prod.fst)).flatten))) := by
  have hdec' : Codec.decodeRecs s (Codec.initMessage s) rs = some m := by
    unfold Codec.decode at hdec
    rw [hrs] at hdec
    exact hdec
  have hinitlen : (Codec.initMessage s).values.length = s.fields.length := by
    simp [Codec.initMessage]
  have hinit_at : ∀ (i : Nat) (fm : Codec.FieldModel), s.fields[i]? = some fm →
      (Codec.initMessage s).values[i]? =
        some (Codec.initValue (Codec.FieldModel.kind fm)) := by
    intro i fm hfm
    show (s.fields.map (fun g => Codec.initValue (Codec.FieldModel.kind g)))[i]? = _
    rw [List.getElem?_map, hfm]
    rfl
  refine ⟨?_, ?_, ?_⟩
  · intro rs' hperm
    have hreads := (Wire.readRecs_elim hrs).2
    have hreads' : ∀ p ∈ rs', Wire.ReadsAs p := fun p hp =>
      hreads p (hperm.mem_iff.mp hp)
    have hread' : Wire.readRecs ((rs'.map Prod.snd).flatten) = some rs' :=
      Wire.readRecs_flatten rs' hreads'
    have hsome : (Codec.decodeRecs s (Codec.initMessage s) rs).isSome = true := by
      rw [hdec']; rfl
    rw [Codec.decodeRecs_isSome s rs _ (Codec.initMessage_shape s)] at hsome
    have hall : ∀ rr ∈ rs', Codec.recordOKFields s.fields rr.1 = true := by
      intro rr hrr
      exact (List.all_eq_true.mp hsome) rr (hperm.mem_iff.mp hrr)
    have hsome' : (Codec.decodeRecs s (Codec.initMessage s) rs').isSome = true := by
      rw [Codec.decodeRecs_isSome s rs' _ (Codec.initMessage_shape s)]
      exact List.all_eq_true.mpr hall
    obtain ⟨m', hm'⟩ := Option.isSome_iff_exists.mp hsome'
    refine ⟨m', ?_⟩
    unfold Codec.decode
    rw [hread']
    exact hm'
  · intro i fm hfm pres hkind
    exact Codec.decodeRecs_singular_last hwf.1 rs _ m hdec' hinitlen i fm hfm pres hkind
      _ (hinit_at i fm hfm)
  · intro i fm hfm hkind
    have hinit : (Codec.initMessage s).values[i]? =
        some (Codec.FieldValue.repeatedVal []) := by
      rw [hinit_at i fm hfm, hkind]
      rfl
    have := Codec.decodeRecs_repeated_acc hwf.1 rs _ m hdec' hinitlen i fm hfm hkind
      [] hinit
    simpa using this

unseal Wire.varintEncode List.merge List.mergeSort in
/-- Witness for C7: two duplicate occurrences of singular field 1 decode with
the later value 9 winning, on a concrete two-field schema. -/
theorem claim_decode_unordered_witness :
    (Codec.MessageSchema.wf
        ⟨[⟨1, Codec.FieldKind.singular BuildRs.Presence.implicit⟩,
          ⟨2, Codec.FieldKind.repeated⟩]⟩ ∧
      Codec.decode
        ⟨[⟨1, Codec.FieldKind.singular BuildRs.Presence.implicit⟩,
          ⟨2, Codec.FieldKind.repeated⟩]⟩ [8, 4, 8, 9] =
        some ⟨[Codec.FieldValue.implicitVal 9, Codec.FieldValue.repeatedVal []], []⟩ ∧
      Wire.readRecs [8, 4, 8, 9] =
        some [(⟨1, Wire.RecPayload.varintP 4⟩, [8, 4]),
          (⟨1, Wire.RecPayload.varintP 9⟩, [8, 9])]) ∧
    (⟨[Codec.FieldValue.implicitVal 9, Codec.FieldValue.repeatedVal []], []⟩ :
        Codec.MessageValue).values[0]? =
      some
        (match (Codec.singularOccs 1
            ([(⟨1, Wire.RecPayload.varintP 4⟩, [8, 4]),
              (⟨1, Wire.RecPayload.varintP 9⟩, [8, 9])].map Prod.fst)).getLast? with
         | none => Codec.initValue
            (Codec.FieldModel.kind ⟨1, Codec.FieldKind.singular BuildRs.Presence.implicit⟩)
         | some v => Codec.mkSingular BuildRs.Presence.implicit v) :=
  ⟨⟨by decide, by decide, by decide⟩,
   (claim_decode_unordered
      ⟨[⟨1, Codec.FieldKind.singular BuildRs.Presence.implicit⟩,
        ⟨2, Codec.FieldKind.repeated⟩]⟩ (by decide) [8, 4, 8, 9]
      ⟨[Codec.FieldValue.implicitVal 9, Codec.FieldValue.repeatedVal []], []⟩
      [(⟨1, Wire.RecPayload.varintP 4⟩, [8, 4]),
        (⟨1, Wire.RecPayload.varintP 9⟩, [8, 9])]
      (by decide) (by decide)).2.1
      0 ⟨1, Codec.FieldKind.singular BuildRs.Presence.implicit⟩ (by decide)
      BuildRs.Presence.implicit rfl⟩

/-- C8: unknown-field preservation — a successfully decoded byte sequence's
records with no matching field model end up verbatim in the decoded message's
unknown buffer, and re-encoding emits that buffer unchanged after the known
fields rather than discarding it. -/
theorem claim_unknown_preserved (s : Codec.MessageSchema) (bytes : List Nat)
    (m : Codec.MessageValue) (rs : List (Wire.Rec × List Nat))
    (hdec : Codec.decode s bytes = some m)
    (hrs : Wire.readRecs bytes = some rs) :
    m.unknown = ((rs.filter (fun rr =>
        decide (∀ fm ∈ s.fields,
          Codec.FieldModel.number fm ≠ Wire.Rec.number (Prod.fst rr)))).map
      Prod.snd).flatten ∧
    ∃ known, Codec.encodeMessage s m = known ++ m.unknown := by
  have hdec' : Codec.decodeRecs s (Codec.initMessage s) rs = some m := by
    unfold Codec.decode at hdec
    rw [hrs] at hdec
    exact hdec
  constructor
  · have := Codec.decodeRecs_unknown_eq rs (Codec.initMessage s) m hdec'
      (by simp [Codec.initMessage])
    simpa [Codec.initMessage] using this
  · exact ⟨_, rfl⟩

unseal Wire.varintEncode List.merge List.mergeSort in
/-- Witness for C8: bytes carrying known field 1 and unknown field 9 decode
with the unknown record's raw bytes `[72, 7]` preserved, and re-encoding
re-emits them as a suffix. -/
theorem claim_unknown_preserved_witness :
    (Codec.decode ⟨[⟨1, Codec.FieldKind.singular BuildRs.Presence.implicit⟩]⟩
        [8, 5, 72, 7] =
        some ⟨[Codec.FieldValue.implicitVal 5], [72, 7]⟩ ∧
      Wire.readRecs [8, 5, 72, 7] =
        some [(⟨1, Wire.RecPayload.varintP 5⟩, [8, 5]),
          (⟨9, Wire.RecPayload.varintP 7⟩, [72, 7])]) ∧
    ((⟨[Codec.FieldValue.implicitVal 5], [72, 7]⟩ : Codec.MessageValue).unknown =
      (([(⟨1, Wire.RecPayload.varintP 5⟩, [8, 5]),
          (⟨9, Wire.RecPayload.varintP 7⟩, [72, 7])].filter (fun rr =>
        decide (∀ fm ∈ (⟨[⟨1, Codec.FieldKind.singular BuildRs.Presence.implicit⟩]⟩ :
            Codec.MessageSchema).fields,
          Codec.FieldModel.number fm ≠ Wire.Rec.number (Prod.fst rr)))).map
        Prod.snd).flatten ∧
      ∃ known, Codec.encodeMessage
          ⟨[⟨1, Codec.FieldKind.singular BuildRs.Presence.implicit⟩]⟩
          ⟨[Codec.FieldValue.implicitVal 5], [72, 7]⟩ =
        known ++ (⟨[Codec.FieldValue.implicitVal 5], [72, 7]⟩ :
          Codec.MessageValue).unknown) :=
  ⟨⟨by decide, by decide⟩,
   claim_unknown_preserved
      ⟨[⟨1, Codec.FieldKind.singular BuildRs.Presence.implicit⟩]⟩ [8, 5, 72, 7]
      ⟨[Codec.FieldValue.implicitVal 5], [72, 7]⟩
      [(⟨1, Wire.RecPayload.varintP 5⟩, [8, 5]),
        (⟨9, Wire.RecPayload.varintP 7⟩, [72, 7])]
      (by decide) (by decide)⟩

unseal Wire.varintEncode in
/-- C9 counterexample: the claim fails at the default value 0 — an implicit
field holding 0 encodes to no bytes while the same present value 0 under the
explicit-optional policy encodes the tag and a zero payload, so the wire
outputs differ for that present logical value. -/
theorem claim_optional_transparency_cex :
    Codec.encodeField ⟨4, Codec.FieldKind.singular BuildRs.Presence.implicit⟩
        (Codec.FieldValue.implicitVal 0) = [] ∧
    Codec.encodeField ⟨4, Codec.FieldKind.singular BuildRs.Presence.explicitOptional⟩
        (Codec.FieldValue.optionalVal (some 0)) = [32, 0] ∧
    Codec.encodeField ⟨4, Codec.FieldKind.singular BuildRs.Presence.implicit⟩
        (Codec.FieldValue.implicitVal 0) ≠
      Codec.encodeField ⟨4, Codec.FieldKind.singular BuildRs.Presence.explicitOptional⟩
        (Codec.FieldValue.optionalVal (some 0)) := by
  refine ⟨rfl, by decide, by decide⟩

/-- C9 (amended): encoding the same present, non-default scalar value through
an implicit-policy field and through an explicit-optional-policy field yields
byte-identical wire output; at the default value 0 the implicit policy emits
nothing while explicit-optional emits the tag. -/
theorem claim_optional_transparency (n v : Nat) (hv : v ≠ 0) :
    Codec.encodeField ⟨n, Codec.FieldKind.singular BuildRs.Presence.implicit⟩
        (Codec.FieldValue.implicitVal v) =
      Codec.encodeField ⟨n, Codec.FieldKind.singular BuildRs.Presence.explicitOptional⟩
        (Codec.FieldValue.optionalVal (some v)) := by
  cases v with
  | zero => exact absurd rfl hv
  | succ w => rfl

/-- Witness for the amended C9 at field 4, value 7. -/
theorem claim_optional_transparency_witness :
    (7 : Nat) ≠ 0 ∧
    Codec.encodeField ⟨4, Codec.FieldKind.singular BuildRs.Presence.implicit⟩
        (Codec.FieldValue.implicitVal 7) =
      Codec.encodeField ⟨4, Codec.FieldKind.singular BuildRs.Presence.explicitOptional⟩
        (Codec.FieldValue.optionalVal (some 7)) :=
  ⟨by decide, claim_optional_transparency 4 7 (by decide)⟩
